import Mathlib

/-!
# Verification of the email classification and semantic-search core

This file is a shallow embedding, in Lean 4, of the decision logic of an
email classification and response system written in Python:

* the keyword/regex based text signal extractor
  (`src/ai/text_analyzer.py`: sentiment, keyword and entity extraction),
* the deterministic priority derivation rule
  (`src/core/email_processor.py`, `_determine_priority`),
* the rule-assembled classification pipeline
  (`src/core/email_processor.py`, `classify_email`, together with the
  pydantic validation performed by the `EmailClassification` model of
  `src/data/models.py`),
* the retrying Sheets classifier
  (`enhanced_email_classifier.py`, `classify_email` and its `Config`),
* the vector similarity search engine
  (`src/ai/semantic_search.py`: `search`, `find_similar` and the
  distance-to-similarity conversion).

External collaborators (the OpenAI completion endpoint, the embedding
endpoint and the ChromaDB index) are modelled as inputs: an oracle giving
the outcome of each completion attempt, and a `Backend` record of fallible
functions.  Python exceptions are modelled with `Except`, Python floats
with `ℚ` (the claims under study concern ordering and exact thresholds,
not rounding), Python strings with `String`/`List Char` (the character
operations below are ASCII-faithful, which covers every fixed keyword set
and every concrete input appearing in the claims).

Python's `re` module is embedded as a small backtracking regex engine
(`RE`, `mlist`, `findall`) that reproduces leftmost/greedy/first-result
semantics for the five concrete patterns used by the source; `re.findall`
scanning (continue at the end of the previous match) is `findallAux`.
-/

set_option maxRecDepth 20000

deriving instance DecidableEq for Except

/-! ## Basic string utilities (Python `str.lower`, `str.strip`, `in`) -/

/-- Lowercase a character sequence, as Python `str.lower()` does on ASCII text. -/
def lowerL (l : List Char) : List Char := l.map Char.toLower

/-- Model of Python `str.lower()`. -/
def strToLower (s : String) : String := String.mk (lowerL s.data)

/-- Python whitespace characters (the default set stripped by `str.strip()`
and matched by the regex class `\s`, restricted to ASCII). -/
def isSpaceChar (c : Char) : Bool :=
  c = ' ' || c = '\t' || c = '\n' || c = '\r' || c = '\x0b' || c = '\x0c'

/-- Model of Python `str.strip()` (no arguments: strip whitespace at both ends). -/
def strTrim (s : String) : String :=
  String.mk (((s.data.dropWhile isSpaceChar).reverse.dropWhile isSpaceChar).reverse)

/-- Does `needle` occur at the very start of `hay`? -/
def startsWithL : List Char → List Char → Bool
  | [], _ => true
  | _ :: _, [] => false
  | a :: as, b :: bs => a = b && startsWithL as bs

/-- Does `needle` occur contiguously anywhere in `hay`?  Model of the Python
substring test `needle in hay`. -/
def containsL (hay needle : List Char) : Bool :=
  if startsWithL needle hay then true
  else
    match hay with
    | [] => false
    | _ :: t => containsL t needle

/-- Python `needle in hay` on strings. -/
def strContains (hay needle : String) : Bool := containsL hay.data needle.data

/-! ## Enumerations of `src/data/models.py` -/

/-- `EmailCategory` of `src/data/models.py` (the rich seven-value schema). -/
inductive EmailCategory where
  | support
  | complaint
  | inquiry
  | order
  | billing
  | technical
  | general
deriving DecidableEq

/-- The wire-level string value of each category (the `str` value of the Python enum). -/
def EmailCategory.value : EmailCategory → String
  | .support => "support"
  | .complaint => "complaint"
  | .inquiry => "inquiry"
  | .order => "order"
  | .billing => "billing"
  | .technical => "technical"
  | .general => "general"

/-- Coercion of a string to `EmailCategory`, as pydantic performs when a raw
value is assigned to an `EmailCategory` field: the matching enum member, or a
validation failure (`none`) for an out-of-set string. -/
def EmailCategory.ofValue? (s : String) : Option EmailCategory :=
  if s = "support" then some .support
  else if s = "complaint" then some .complaint
  else if s = "inquiry" then some .inquiry
  else if s = "order" then some .order
  else if s = "billing" then some .billing
  else if s = "technical" then some .technical
  else if s = "general" then some .general
  else none

/-- `EmailPriority` of `src/data/models.py`. -/
inductive EmailPriority where
  | low
  | medium
  | high
  | urgent
deriving DecidableEq

/-- `EmailSentiment` of `src/data/models.py`. -/
inductive EmailSentiment where
  | positive
  | neutral
  | negative
deriving DecidableEq

/-- One extracted entity: the `{"type": ..., "value": ...}` dictionaries built
by `TextAnalyzer.extract_entities`. -/
structure Entity where
  type : String
  value : String
deriving DecidableEq

/-! ## Sentiment analysis (`TextAnalyzer.analyze_sentiment`) -/

/-- `self.positive_keywords` of `TextAnalyzer`. -/
def positive_keywords : List String :=
  ["thank", "great", "excellent", "wonderful", "amazing", "love",
   "perfect", "satisfied", "happy", "pleased"]

/-- `self.negative_keywords` of `TextAnalyzer`. -/
def negative_keywords : List String :=
  ["terrible", "awful", "bad", "horrible", "disappointed", "angry",
   "frustrated", "upset", "unhappy", "hate", "worst"]

/-- `TextAnalyzer.analyze_sentiment`: count how many positive and how many
negative keywords occur (case-insensitive substring test) and compare. -/
def analyze_sentiment (text : String) : EmailSentiment :=
  let text_lower := strToLower text
  let positive_count := positive_keywords.countP (fun word => strContains text_lower word)
  let negative_count := negative_keywords.countP (fun word => strContains text_lower word)
  if positive_count > negative_count then .positive
  else if negative_count > positive_count then .negative
  else .neutral

/-! ## Priority derivation (`EmailProcessor._determine_priority`) -/

/-- The `urgent_keywords` list of `EmailProcessor._determine_priority`. -/
def urgent_keywords : List String :=
  ["urgent", "emergency", "critical", "asap", "immediately",
   "broken", "down", "not working", "error", "failed"]

/-- `EmailProcessor._determine_priority`.  The `category` argument is the raw
string held by the AI-classification dictionary under the key `category`
(`None` when the key is absent); the Python comparisons against the `str`-enum
members compare it with the enum string values. -/
def determine_priority (subject body : String) (category : Option String) : EmailPriority :=
  let content_lower := strToLower (subject ++ " " ++ body)
  if urgent_keywords.any (fun keyword => strContains content_lower keyword) then .urgent
  else if category = some "complaint" then .high
  else if category = some "technical" ∨ category = some "billing" then .medium
  else .low

/-! ## A backtracking regex engine for the fixed patterns of the source

The Python source uses `re.findall` with five fixed patterns.  `RE` is an
abstract syntax for exactly the constructs those patterns need; `mlist`
returns, in Python's backtracking preference order (alternation tries the
left branch first, repetition is greedy), the candidate match ends at a
given start position, together with the span of the single capturing group
when one matched.  `mlist` is fuel-indexed; `matchFuel` is enough fuel for
these patterns, in which every starred sub-pattern consumes at least one
character per iteration. -/

inductive RE where
  | eps
  | cls (f : Char → Bool)
  | seq (a b : RE)
  | alt (a b : RE)
  | star (a : RE)
  | wordB
  | group (a : RE)

/-- One candidate match: its end position and the captured group span, if any. -/
structure MRes where
  stop : Nat
  grp : Option (Nat × Nat)
deriving DecidableEq

/-- Python `\w` (ASCII): letters, digits and underscore. -/
def isWordChar (c : Char) : Bool := c.isAlphanum || c = '_'

/-- Is the character at position `p` a word character (out of range counts as no)? -/
def wordAt (t : List Char) (p : Nat) : Bool :=
  match t.get? p with
  | some c => isWordChar c
  | none => false

/-- Python `\b`: position `p` lies between a word character and a non-word
character (the ends of the text count as non-word). -/
def atBoundary (t : List Char) (p : Nat) : Bool :=
  (if p = 0 then false else wordAt t (p - 1)) != wordAt t p

/-- All candidate matches of `re` in `t` starting at `p`, most preferred first. -/
def mlist : Nat → RE → List Char → Nat → List MRes
  | 0, _, _, _ => []
  | fuel+1, re, t, p =>
    match re with
    | .eps => [⟨p, none⟩]
    | .cls f =>
      match t.get? p with
      | some c => if f c then [⟨p+1, none⟩] else []
      | none => []
    | .seq a b =>
      (mlist fuel a t p).flatMap (fun r =>
        (mlist fuel b t r.stop).map (fun s => ⟨s.stop, s.grp <|> r.grp⟩))
    | .alt a b => mlist fuel a t p ++ mlist fuel b t p
    | .star a =>
      ((mlist fuel a t p).flatMap (fun r =>
        if p < r.stop then
          (mlist fuel (.star a) t r.stop).map (fun s => ⟨s.stop, s.grp <|> r.grp⟩)
        else [])) ++ [⟨p, none⟩]
    | .wordB => if atBoundary t p then [⟨p, none⟩] else []
    | .group a => (mlist fuel a t p).map (fun r => ⟨r.stop, some (p, r.stop)⟩)

/-- Structural size of a pattern, used to bound the fuel. -/
def reSize : RE → Nat
  | .eps => 1
  | .cls _ => 1
  | .seq a b => reSize a + reSize b + 1
  | .alt a b => reSize a + reSize b + 1
  | .star a => reSize a + 1
  | .wordB => 1
  | .group a => reSize a + 1

/-- Fuel sufficient for the source's patterns (no starred sub-pattern of
theirs can match the empty string, so backtracking depth is bounded by
pattern size times text length). -/
def matchFuel (re : RE) (t : List Char) : Nat := (reSize re + 2) * (t.length + 2)

/-- Does the pattern contain a capturing group? -/
def hasGroup : RE → Bool
  | .eps => false
  | .cls _ => false
  | .seq a b => hasGroup a || hasGroup b
  | .alt a b => hasGroup a || hasGroup b
  | .star a => hasGroup a
  | .wordB => false
  | .group _ => true

/-- First match attempt at each start position `p`, `p+1`, ...: the leftmost
match, as Python's scanning search finds it.  The fuel counts the remaining
candidate start positions. -/
def searchFrom : Nat → RE → List Char → Nat → Option (Nat × MRes)
  | 0, _, _, _ => none
  | fu+1, re, t, p =>
    match (mlist (matchFuel re t) re t p).head? with
    | some r => some (p, r)
    | none => if p < t.length then searchFrom fu re t (p+1) else none

/-- The characters of `t` from position `s` (inclusive) to `e` (exclusive). -/
def sliceL (t : List Char) (s e : Nat) : List Char := (t.drop s).take (e - s)

/-- Repeated scanning of `re.findall`: find a match, emit its start position
and its value (the captured group if the pattern has one, else the whole
match), continue at the match end. -/
def findallAux : Nat → RE → List Char → Nat → List (Nat × List Char)
  | 0, _, _, _ => []
  | fu+1, re, t, p =>
    match searchFrom (t.length + 1 - p) re t p with
    | none => []
    | some (s, r) =>
      let value := match r.grp with
        | some (gs, ge) => sliceL t gs ge
        | none => sliceL t s r.stop
      (s, value) :: findallAux fu re t (if s < r.stop then r.stop else s + 1)

/-- `re.findall`, keeping each match's start position. -/
def findallP (re : RE) (t : List Char) : List (Nat × List Char) :=
  findallAux (t.length + 1) re t 0

/-- `re.findall`: the list of match values, in scan order. -/
def findall (re : RE) (t : List Char) : List (List Char) := (findallP re t).map (·.2)

/-! ### The concrete patterns -/

/-- A literal character. -/
def chr (c : Char) : RE := .cls (fun x => x = c)

/-- A literal character under `re.IGNORECASE` (`c` is given lowercase). -/
def ciChr (c : Char) : RE := .cls (fun x => x.toLower = c)

/-- Regex `+`. -/
def plus (a : RE) : RE := .seq a (.star a)

/-- Regex `?`. -/
def opt (a : RE) : RE := .alt a .eps

/-- Regex `{n}`: exactly `n` copies. -/
def rep : Nat → RE → RE
  | 0, _ => .eps
  | n+1, a => .seq a (rep n a)

/-- Regex `{n,}`: at least `n` copies. -/
def repAtLeast (n : Nat) (a : RE) : RE := .seq (rep n a) (.star a)

/-- A case-insensitive literal word (the word is given lowercase). -/
def strCi (s : String) : RE := s.data.foldr (fun c acc => RE.seq (ciChr c) acc) .eps

def isAsciiUpper (c : Char) : Bool := 'A' ≤ c && c ≤ 'Z'
def isAsciiLower (c : Char) : Bool := 'a' ≤ c && c ≤ 'z'
def isAsciiDigit (c : Char) : Bool := '0' ≤ c && c ≤ '9'
def isAsciiAlpha (c : Char) : Bool := isAsciiUpper c || isAsciiLower c
def isAsciiAlnum (c : Char) : Bool := isAsciiAlpha c || isAsciiDigit c

/-- The character class `[A-Za-z0-9._%+-]` (local part of the email pattern). -/
def emailLocalChar (c : Char) : Bool :=
  isAsciiAlnum c || c = '.' || c = '_' || c = '%' || c = '+' || c = '-'

/-- The character class `[A-Za-z0-9.-]` (domain part of the email pattern). -/
def emailDomainChar (c : Char) : Bool := isAsciiAlnum c || c = '.' || c = '-'

/-- The character class `[A-Z|a-z]` of the email pattern (the `|` inside the
brackets is a literal character of the class, exactly as Python reads it). -/
def emailTldChar (c : Char) : Bool := isAsciiUpper c || c = '|' || isAsciiLower c

/-- The email-address pattern of `extract_entities`. -/
def emailRE : RE :=
  .seq .wordB (.seq (plus (.cls emailLocalChar)) (.seq (chr '@')
    (.seq (plus (.cls emailDomainChar)) (.seq (chr '.')
      (.seq (repAtLeast 2 (.cls emailTldChar)) .wordB)))))

/-- The class `[-.]` of the phone pattern. -/
def dashDot : RE := .cls (fun c => c = '-' || c = '.')

/-- The phone-number pattern of `extract_entities`. -/
def phoneRE : RE :=
  .seq .wordB (.seq (rep 3 (.cls isAsciiDigit)) (.seq (opt dashDot)
    (.seq (rep 3 (.cls isAsciiDigit)) (.seq (opt dashDot)
      (.seq (rep 4 (.cls isAsciiDigit)) .wordB)))))

/-- The order-identifier pattern of `extract_entities`, compiled with
`re.IGNORECASE`; its single capturing group is the identifier. -/
def orderRE : RE :=
  .seq (.alt (strCi "order") (chr '#'))
    (.seq (.star (.cls isSpaceChar))
      (.seq (opt (.cls (fun c => c = '-' || c = ':')))
        (.seq (.star (.cls isSpaceChar))
          (.group (plus (.cls isAsciiAlnum))))))

/-- The dollar-amount pattern of `extract_entities`. -/
def moneyRE : RE :=
  .seq (chr '$') (.seq (plus (.cls isAsciiDigit))
    (opt (.seq (chr '.') (rep 2 (.cls isAsciiDigit)))))

/-- The token pattern of `extract_keywords`. -/
def wordTokenRE : RE := .seq .wordB (.seq (repAtLeast 3 (.cls isAsciiAlpha)) .wordB)

/-! ## Entity extraction (`TextAnalyzer.extract_entities`) -/

/-- `TextAnalyzer.extract_entities`: the email-address matches, then the
phone-number matches, then the order identifiers, then the dollar amounts,
each tagged with its type. -/
def extract_entities (text : String) : List Entity :=
  let t := text.data
  (findall emailRE t).map (fun v => ⟨"email", String.mk v⟩)
  ++ (findall phoneRE t).map (fun v => ⟨"phone", String.mk v⟩)
  ++ (findall orderRE t).map (fun v => ⟨"order_id", String.mk v⟩)
  ++ (findall moneyRE t).map (fun v => ⟨"money", String.mk v⟩)

/-! ## Keyword extraction (`TextAnalyzer.extract_keywords`) -/

/-- The `stop_words` set of `extract_keywords`. -/
def stop_words : List String :=
  ["the", "a", "an", "and", "or", "but", "in", "on", "at", "to", "for",
   "of", "with", "by", "from", "up", "about", "into", "through", "during",
   "before", "after", "above", "below", "between", "among", "is", "are",
   "was", "were", "be", "been", "being", "have", "has", "had", "do", "does",
   "did", "will", "would", "could", "should", "may", "might", "can", "am"]

/-- One update of the Python dict `word_freq[word] = word_freq.get(word, 0) + 1`:
increment in place when the key exists, else append it (dicts preserve
insertion order). -/
def bump : List (String × Nat) → String → List (String × Nat)
  | [], w => [(w, 1)]
  | (k, n) :: rest, w =>
    if k = w then (k, n + 1) :: rest else (k, n) :: bump rest w

/-- The alphabetic tokens of length at least three found in the lowercased text. -/
def tokensOf (text : String) : List String :=
  (findall wordTokenRE (strToLower text).data).map String.mk

/-- The `word_freq` dictionary of `extract_keywords`, as an association list in
key insertion order (= first-seen order of the retained tokens). -/
def word_freq (text : String) : List (String × Nat) :=
  (tokensOf text).foldl (fun acc word => if word ∈ stop_words then acc else bump acc word) []

/-- Insert one entry into a descending-by-count list, after all entries of
greater or equal count.  Folding this over a list in order is a stable
descending sort, which is what Python's `sorted(..., key=count, reverse=True)`
guarantees. -/
def insertByCountDesc (x : String × Nat) : List (String × Nat) → List (String × Nat)
  | [] => [x]
  | y :: ys => if y.2 < x.2 then x :: y :: ys else y :: insertByCountDesc x ys

/-- Python `sorted(word_freq.items(), key=lambda x: x[1], reverse=True)`:
stable sort by descending count. -/
def sortByCountDesc (l : List (String × Nat)) : List (String × Nat) :=
  l.foldl (fun acc x => insertByCountDesc x acc) []

/-- `TextAnalyzer.extract_keywords`. -/
def extract_keywords (text : String) (max_keywords : Nat) : List String :=
  ((sortByCountDesc (word_freq text)).take max_keywords).map (·.1)

/-- Count associated with a key in an association list (0 when absent), the
read access `word_freq.get(w, 0)`. -/
def lookupCount (l : List (String × Nat)) (w : String) : Nat :=
  match l with
  | [] => 0
  | (k, n) :: rest => if k = w then n else lookupCount rest w

/-! ## The retrying Sheets classifier (`enhanced_email_classifier.py`) -/

namespace Config

/-- `Config.VALID_CATEGORIES`. -/
def VALID_CATEGORIES : List String := ["order", "inquiry", "other"]

/-- `Config.DEFAULT_CATEGORY`. -/
def DEFAULT_CATEGORY : String := "other"

/-- `Config.MAX_RETRIES`. -/
def MAX_RETRIES : Nat := 3

/-- `Config.RETRY_DELAY` (seconds between attempts; the delay itself is wall
time, outside the scope of the embedding). -/
def RETRY_DELAY : ℚ := 1

end Config

/-- Outcome of one completion API attempt: an exception, or a response whose
message content is the given string. -/
inductive AttemptOutcome where
  | failure
  | success (content : String)

/-- `classify_email` of `enhanced_email_classifier.py`, with the completion
service abstracted as an oracle from the attempt index (the `retry_count`)
to that attempt's outcome.  On a response, the content is stripped, lowered
and checked against the valid categories, out-of-set values becoming the
default category; on an exception, the call retries itself with
`retry_count + 1` while `retry_count < MAX_RETRIES - 1`, and otherwise
returns the default category. -/
def classify_email (oracle : Nat → AttemptOutcome) (retry_count : Nat) : String :=
  match oracle retry_count with
  | .success content =>
    let category := strToLower (strTrim content)
    if category ∉ Config.VALID_CATEGORIES then Config.DEFAULT_CATEGORY
    else category
  | .failure =>
    if retry_count < Config.MAX_RETRIES - 1 then classify_email oracle (retry_count + 1)
    else Config.DEFAULT_CATEGORY
termination_by Config.MAX_RETRIES - retry_count
decreasing_by simp [Config.MAX_RETRIES] at *; omega

/-- The number of completion API calls issued by `classify_email` (one per
invocation, counting the recursive retries). -/
def classify_email_calls (oracle : Nat → AttemptOutcome) (retry_count : Nat) : Nat :=
  match oracle retry_count with
  | .success _ => 1
  | .failure =>
    if retry_count < Config.MAX_RETRIES - 1 then 1 + classify_email_calls oracle (retry_count + 1)
    else 1
termination_by Config.MAX_RETRIES - retry_count
decreasing_by simp [Config.MAX_RETRIES] at *; omega

/-! ## The pipeline classifier (`EmailProcessor.classify_email`) -/

/-- The dictionary parsed from the completion service's JSON answer, as
`LLMClient.classify_email` returns it to `EmailProcessor.classify_email`
(`category` and `confidence` are the fields the processor reads with
mandatory access, `subcategory` with `.get`). -/
structure AIClassification where
  category : String
  subcategory : Option String
  confidence : ℚ
deriving DecidableEq

/-- The `EmailClassification` pydantic model of `src/data/models.py`. -/
structure EmailClassification where
  category : EmailCategory
  subcategory : Option String
  priority : EmailPriority
  sentiment : EmailSentiment
  confidence : ℚ
  keywords : List String
  entities : List Entity
deriving DecidableEq

/-- Construction of `EmailClassification(...)`: pydantic coerces the raw
category string to the enum (raising a validation error on an out-of-set
value) and requires `confidence` in `[0, 1]` (the `ge`/`le` field bounds). -/
def mk_email_classification (category : String) (subcategory : Option String)
    (priority : EmailPriority) (sentiment : EmailSentiment) (confidence : ℚ)
    (keywords : List String) (entities : List Entity) :
    Except String EmailClassification :=
  match EmailCategory.ofValue? category with
  | none => .error "validation error: category is not a valid EmailCategory"
  | some cat =>
    if 0 ≤ confidence ∧ confidence ≤ 1 then
      .ok ⟨cat, subcategory, priority, sentiment, confidence, keywords, entities⟩
    else .error "validation error: confidence out of range"

/-- `EmailProcessor.classify_email`.  The completion call is abstracted as its
result (`ai_result`: the parsed dictionary, or the exception raised by
`LLMClient.classify_email`, which the processor re-raises).  The processor
combines it with the text analyzer's sentiment, keywords and entities over
the combined content string, derives the priority, and builds the pydantic
model; a pydantic validation error is also re-raised. -/
def processor_classify_email (ai_result : Except String AIClassification)
    (subject body : String) : Except String EmailClassification :=
  match ai_result with
  | .error e => .error e
  | .ok ai =>
    let content := "Subject: " ++ subject ++ "\n\nBody: " ++ body
    let sentiment := analyze_sentiment content
    let keywords := extract_keywords content 10
    let entities := extract_entities content
    let priority := determine_priority subject body (some ai.category)
    mk_email_classification ai.category ai.subcategory priority sentiment
      ai.confidence keywords entities

/-! ## The semantic search engine (`src/ai/semantic_search.py`)

The ChromaDB collection and the embedding endpoint are external; a `Backend`
packages them as fallible functions (`Except.error` is a raised exception).
A `query` reply's parallel arrays (`ids`, `metadatas`, `documents`,
`distances`) are modelled as a list of per-result rows, and a `get` reply
likewise. -/

/-- One row of a ChromaDB `query` reply: the id, the metadata fields the
engine reads, the stored document and the cosine distance. -/
structure QRow where
  id : String
  subject : String
  category : String
  timestamp : String
  document : String
  distance : ℚ
deriving DecidableEq

/-- One row of a ChromaDB `get` reply: the id, the stored document and the
stored embedding. -/
structure GRow where
  id : String
  document : String
  embedding : List ℚ
deriving DecidableEq

/-- The two external services used by `SemanticSearchEngine`: the embedding
endpoint and the ChromaDB collection (`query` takes the query embedding, the
number of neighbours requested and the optional `where` filter; `get` takes
an id and returns the rows found for it, the empty list when the id is not
present). -/
structure Backend where
  embed : String → Except String (List ℚ)
  query : List ℚ → Nat → Option String → Except String (List QRow)
  get : String → Except String (List GRow)

/-- A `SearchQuery` as `search` consumes it (the date range is read but its
filtering branch is empty in the source). -/
structure SearchQueryM where
  query : String
  limit : Nat
  category_filter : Option EmailCategory
deriving DecidableEq

/-- A `SearchResult` of `src/data/models.py` (the timestamp string is carried
as-is). -/
structure SearchResult where
  email_id : String
  subject : String
  snippet : String
  similarity_score : ℚ
  category : EmailCategory
  timestamp : String
deriving DecidableEq

/-- Python `query.lower().split()`: whitespace-separated words. -/
def splitWords (s : String) : List String :=
  ((strToLower s).data.splitOnP isSpaceChar).map String.mk |>.filter (fun w => w ≠ "")

/-- `SemanticSearchEngine._create_snippet` (with its default window of 200
characters): score every window position by the number of query terms it
contains, keep the first best position, then tidy the window end at a word
boundary before appending the truncation marker. -/
def create_snippet (document query : String) : String :=
  let max_length := 200
  let query_terms := splitWords query
  let document_lower := strToLower document
  let positions := List.range ((document.data.length + 1) - max_length)
  let best := positions.foldl (fun (best : Nat × Nat) i =>
    let snippet := sliceL document_lower.data i (i + max_length)
    let score := query_terms.countP (fun term => containsL snippet term.data)
    if best.1 < score then (score, i) else best) (0, 0)
  let best_pos := best.2
  let snippet := sliceL document.data best_pos (best_pos + max_length)
  if snippet.length = max_length ∧ best_pos + max_length < document.data.length then
    let tail_len := (snippet.reverse.takeWhile (fun c => c ≠ ' ')).length
    let last_space : Int := (snippet.length : Int) - 1 - (tail_len : Int)
    if 160 < last_space then String.mk (snippet.take last_space.toNat) ++ "..."
    else String.mk snippet ++ "..."
  else String.mk snippet

/-- Conversion of one `query` row into a `SearchResult` inside `search`: the
cosine distance `d` becomes the similarity score `max(0, 1 - d)`, the snippet
is computed from the document and the query text, and the metadata category
string is coerced to the enum (`EmailCategory(...)` raises on an out-of-set
value). -/
def rowToResult (queryText : String) (r : QRow) : Except String SearchResult :=
  match EmailCategory.ofValue? r.category with
  | none => .error "invalid category value"
  | some cat =>
    .ok { email_id := r.id
          subject := r.subject
          snippet := create_snippet r.document queryText
          similarity_score := max 0 (1 - r.distance)
          category := cat
          timestamp := r.timestamp }

/-- The `where` clause built by `search`: the category filter's string value
when one is given. -/
def whereOf (q : SearchQueryM) : Option String := q.category_filter.map EmailCategory.value

/-- `SemanticSearchEngine.search`: embed the query text, query the index with
`limit` neighbours under the optional filter, convert every row.  Every
failure (embedding call, index query, row conversion) is re-raised to the
caller. -/
def search (b : Backend) (q : SearchQueryM) : Except String (List SearchResult) := do
  let query_embedding ← b.embed q.query
  let rows ← b.query query_embedding q.limit (whereOf q)
  let results ← rows.mapM (rowToResult q.query)
  return results

/-- Conversion of one `query` row into a `SearchResult` inside `find_similar`:
same score conversion, but the snippet is a plain 200-character document
truncation. -/
def rowToResultSimilar (r : QRow) : Except String SearchResult :=
  match EmailCategory.ofValue? r.category with
  | none => .error "invalid category value"
  | some cat =>
    .ok { email_id := r.id
          subject := r.subject
          snippet := if 200 < r.document.data.length
                     then String.mk (r.document.data.take 200) ++ "..."
                     else r.document
          similarity_score := max 0 (1 - r.distance)
          category := cat
          timestamp := r.timestamp }

/-- The body of `SemanticSearchEngine.find_similar` up to its exception
handler: fetch the stored row for `email_id` (empty reply means the id is
absent: return no results without querying), query the index for
`limit + 1` neighbours with the stored embedding, drop the original email,
convert every remaining row, and keep the first `limit` results. -/
def find_similar_go (b : Backend) (email_id : String) (limit : Nat) :
    Except String (List SearchResult) := do
  let got ← b.get email_id
  match got with
  | [] => return []
  | g :: _ =>
    let rows ← b.query g.embedding (limit + 1) none
    let filtered := rows.filter (fun r => r.id ≠ email_id)
    let results ← filtered.mapM rowToResultSimilar
    return results.take limit

/-- `SemanticSearchEngine.find_similar`: its `except` clause catches every
failure of the body and turns it into the empty result list. -/
def find_similar (b : Backend) (email_id : String) (limit : Nat) : List SearchResult :=
  match find_similar_go b email_id limit with
  | .ok r => r
  | .error _ => []

/-! ## Declarative match semantics

`Matches re t p q` says the pattern can consume exactly the characters of
positions `p` (inclusive) to `q` (exclusive) of `t`.  `mlist` is proved sound
for it below; inversion on the derivations yields shape facts about the
values `findall` returns. -/

inductive Matches : RE → List Char → Nat → Nat → Prop where
  | eps {t : List Char} {p : Nat} : Matches .eps t p p
  | cls {f : Char → Bool} {t : List Char} {p : Nat} {c : Char} :
      t.get? p = some c → f c = true → Matches (.cls f) t p (p + 1)
  | seqm {a b : RE} {t : List Char} {p q r : Nat} :
      Matches a t p q → Matches b t q r → Matches (.seq a b) t p r
  | altL {a b : RE} {t : List Char} {p q : Nat} :
      Matches a t p q → Matches (.alt a b) t p q
  | altR {a b : RE} {t : List Char} {p q : Nat} :
      Matches b t p q → Matches (.alt a b) t p q
  | starNil {a : RE} {t : List Char} {p : Nat} : Matches (.star a) t p p
  | starCons {a : RE} {t : List Char} {p q r : Nat} :
      Matches a t p q → Matches (.star a) t q r → Matches (.star a) t p r
  | wordBm {t : List Char} {p : Nat} :
      atBoundary t p = true → Matches .wordB t p p
  | groupm {a : RE} {t : List Char} {p q : Nat} :
      Matches a t p q → Matches (.group a) t p q

/-! ## Concrete fixtures used by the witnesses -/

/-- A stored row for id `a` whose embedding is the one-dimensional vector `[1]`. -/
def gRowA : GRow := ⟨"a", "document a", [1]⟩

/-- A neighbour row for the stored email itself (distance 0). -/
def qRowSelf : QRow := ⟨"a", "subject a", "support", "t0", "document a", 0⟩

/-- A close neighbour row (distance 0). -/
def qRowB : QRow := ⟨"b", "subject b", "billing", "t1", "document b", 0⟩

/-- A farther neighbour row (distance 1). -/
def qRowC : QRow := ⟨"c", "subject c", "general", "t2", "document c", 1⟩

/-- A healthy backend holding id `a`, whose neighbour queries reply with the
three rows above in ascending distance order. -/
def wBackend : Backend :=
  { embed := fun _ => .ok [1]
    query := fun _ _ _ => .ok [qRowSelf, qRowB, qRowC]
    get := fun i => if i = "a" then .ok [gRowA] else .ok [] }

/-- A backend whose every external call fails. -/
def wBackendErr : Backend :=
  { embed := fun _ => .error "embedding service failure"
    query := fun _ _ _ => .error "index backend failure"
    get := fun _ => .error "index backend failure" }

/-- The failing-backend variant that still holds id `a`, so that a
`find_similar` call on it reaches the failing neighbour query. -/
def wBackendQueryErr : Backend :=
  { embed := fun _ => .ok [1]
    query := fun _ _ _ => .error "index backend failure"
    get := fun i => if i = "a" then .ok [gRowA] else .ok [] }

/-- An all-attempts-fail completion oracle. -/
def oracleAllFail : Nat → AttemptOutcome := fun _ => .failure

/-- An oracle failing on the first two attempts and answering the third with
a decorated but valid category string. -/
def oracleThirdOk : Nat → AttemptOutcome :=
  fun i => if i = 2 then .success " Order " else .failure

/-- The worked example text of the entity-extraction claim. -/
def entityExampleText : String :=
  "contact me at john.doe@example.com or 555-123-4567, order #12345, charged $49.99"

/-! # Theorems

First the shared lemmas, then one theorem per specification claim (with its
witness or counterexample where applicable). -/

/-! ## Unfolding and range lemmas for the retrying classifier -/

theorem classify_email_eq (oracle : Nat → AttemptOutcome) (rc : Nat) :
    classify_email oracle rc =
      match oracle rc with
      | .success content =>
        let category := strToLower (strTrim content)
        if category ∉ Config.VALID_CATEGORIES then Config.DEFAULT_CATEGORY else category
      | .failure =>
        if rc < Config.MAX_RETRIES - 1 then classify_email oracle (rc + 1)
        else Config.DEFAULT_CATEGORY := by
  rw [classify_email]

theorem classify_email_calls_eq (oracle : Nat → AttemptOutcome) (rc : Nat) :
    classify_email_calls oracle rc =
      match oracle rc with
      | .success _ => 1
      | .failure =>
        if rc < Config.MAX_RETRIES - 1 then 1 + classify_email_calls oracle (rc + 1)
        else 1 := by
  rw [classify_email_calls]

/-- Whatever the completion service does, the retrying classifier only ever
returns one of the three configured categories. -/
theorem classify_email_mem_valid (oracle : Nat → AttemptOutcome) (rc : Nat) :
    classify_email oracle rc ∈ Config.VALID_CATEGORIES := by
  have hsucc : ∀ (oracle : Nat → AttemptOutcome) rc c, oracle rc = .success c →
      classify_email oracle rc ∈ Config.VALID_CATEGORIES := by
    intro oracle rc c ho
    have hred : classify_email oracle rc =
        (if strToLower (strTrim c) ∉ Config.VALID_CATEGORIES then Config.DEFAULT_CATEGORY
         else strToLower (strTrim c)) := by
      rw [classify_email_eq, ho]
    rw [hred]
    by_cases hc : strToLower (strTrim c) ∈ Config.VALID_CATEGORIES
    · rw [if_neg (not_not_intro hc)]; exact hc
    · rw [if_pos hc]; decide
  have H : ∀ n rc, Config.MAX_RETRIES - rc ≤ n → ∀ oracle : Nat → AttemptOutcome,
      classify_email oracle rc ∈ Config.VALID_CATEGORIES := by
    intro n
    induction n with
    | zero =>
      intro rc hn oracle
      have hstop : ¬ (rc < Config.MAX_RETRIES - 1) := by
        simp [Config.MAX_RETRIES] at hn ⊢; omega
      cases ho : oracle rc with
      | success c => exact hsucc oracle rc c ho
      | failure =>
        rw [classify_email_eq, ho]
        simp [hstop, Config.DEFAULT_CATEGORY, Config.VALID_CATEGORIES]
    | succ n ih =>
      intro rc hn oracle
      cases ho : oracle rc with
      | success c => exact hsucc oracle rc c ho
      | failure =>
        by_cases hlt : rc < Config.MAX_RETRIES - 1
        · rw [classify_email_eq, ho]
          simpa [hlt] using ih (rc + 1) (by omega) oracle
        · rw [classify_email_eq, ho]
          simp [hlt, Config.DEFAULT_CATEGORY, Config.VALID_CATEGORIES]
  exact H (Config.MAX_RETRIES - rc) rc le_rfl oracle

/-- The classifier never issues more than `MAX_RETRIES` completion calls. -/
theorem classify_email_calls_le (oracle : Nat → AttemptOutcome) :
    classify_email_calls oracle 0 ≤ Config.MAX_RETRIES := by
  have hcap : classify_email_calls oracle 2 ≤ 1 := by
    rw [classify_email_calls_eq]
    cases oracle 2 with
    | success c => norm_num
    | failure => norm_num [Config.MAX_RETRIES]
  have h1 : classify_email_calls oracle 1 ≤ 2 := by
    rw [classify_email_calls_eq]
    cases oracle 1 with
    | success c => norm_num
    | failure =>
      norm_num [Config.MAX_RETRIES]
      show 1 + classify_email_calls oracle 2 ≤ 2
      omega
  rw [classify_email_calls_eq]
  cases oracle 0 with
  | success c => norm_num [Config.MAX_RETRIES]
  | failure =>
    norm_num [Config.MAX_RETRIES]
    show 1 + classify_email_calls oracle 1 ≤ 3
    omega

/-! ## Claim C2 -/

/-- Claim C2: when every one of the allowed attempts fails (the retry budget
of `MAX_RETRIES = 3` attempts, `RETRY_DELAY = 1` second apart, is
exhausted), `classify_email` resolves to the configured default category and
returns it normally — the model is a total function into `String`, so no
error escapes the component. -/
theorem claim_C2_retry_exhaustion (oracle : Nat → AttemptOutcome)
    (h : ∀ i, i < Config.MAX_RETRIES → oracle i = .failure) :
    classify_email oracle 0 = Config.DEFAULT_CATEGORY ∧
    Config.MAX_RETRIES = 3 ∧ Config.RETRY_DELAY = 1 := by
  refine ⟨?_, rfl, rfl⟩
  have h0 := h 0 (by norm_num [Config.MAX_RETRIES])
  have h1 := h 1 (by norm_num [Config.MAX_RETRIES])
  have h2 := h 2 (by norm_num [Config.MAX_RETRIES])
  have e0 : classify_email oracle 0 = classify_email oracle 1 := by
    rw [classify_email_eq, h0]; norm_num [Config.MAX_RETRIES]
  have e1 : classify_email oracle 1 = classify_email oracle 2 := by
    rw [classify_email_eq, h1]; norm_num [Config.MAX_RETRIES]
  have e2 : classify_email oracle 2 = Config.DEFAULT_CATEGORY := by
    rw [classify_email_eq, h2]; norm_num [Config.MAX_RETRIES]
  rw [e0, e1, e2]

/-- Witness for claim C2 at the concrete all-fail oracle. -/
theorem claim_C2_witness :
    classify_email oracleAllFail 0 = Config.DEFAULT_CATEGORY ∧
    Config.MAX_RETRIES = 3 ∧ Config.RETRY_DELAY = 1 :=
  claim_C2_retry_exhaustion oracleAllFail (fun _ _ => rfl)

/-! ## Claim C3 -/

/-- Claim C3: if the first two completion attempts fail and the third answers
with a recognised category, `classify_email` returns that category — not the
default fallback — and issues exactly three completion calls; moreover no
oracle can ever make it issue more than `MAX_RETRIES = 3` calls. -/
theorem claim_C3_retry_success :
    (∀ (oracle : Nat → AttemptOutcome) (c : String),
       oracle 0 = .failure → oracle 1 = .failure → oracle 2 = .success c →
       strToLower (strTrim c) ∈ Config.VALID_CATEGORIES →
       classify_email oracle 0 = strToLower (strTrim c) ∧
       classify_email_calls oracle 0 = 3) ∧
    (∀ oracle : Nat → AttemptOutcome, classify_email_calls oracle 0 ≤ Config.MAX_RETRIES) := by
  refine ⟨?_, classify_email_calls_le⟩
  intro oracle c h0 h1 h2 hc
  constructor
  · have e0 : classify_email oracle 0 = classify_email oracle 1 := by
      rw [classify_email_eq, h0]; norm_num [Config.MAX_RETRIES]
    have e1 : classify_email oracle 1 = classify_email oracle 2 := by
      rw [classify_email_eq, h1]; norm_num [Config.MAX_RETRIES]
    have e2 : classify_email oracle 2 = strToLower (strTrim c) := by
      rw [classify_email_eq, h2]; simp [hc]
    rw [e0, e1, e2]
  · have e0 : classify_email_calls oracle 0 = 1 + classify_email_calls oracle 1 := by
      rw [classify_email_calls_eq, h0]; norm_num [Config.MAX_RETRIES]
    have e1 : classify_email_calls oracle 1 = 1 + classify_email_calls oracle 2 := by
      rw [classify_email_calls_eq, h1]; norm_num [Config.MAX_RETRIES]
    have e2 : classify_email_calls oracle 2 = 1 := by
      rw [classify_email_calls_eq, h2]
    rw [e0, e1, e2]

/-- Witness for claim C3 at the concrete fail-fail-succeed oracle. -/
theorem claim_C3_witness :
    (classify_email oracleThirdOk 0 = strToLower (strTrim " Order ") ∧
     classify_email_calls oracleThirdOk 0 = 3) ∧
    classify_email_calls oracleAllFail 0 ≤ Config.MAX_RETRIES := by
  constructor
  · exact claim_C3_retry_success.1 oracleThirdOk " Order " rfl rfl rfl (by decide)
  · exact claim_C3_retry_success.2 oracleAllFail

/-! ## Claim C1 -/

/-- Counterexample to claim C1 as stated: when the completion service answers
`EmailProcessor.classify_email` with the out-of-set category string `banana`,
the processor does not substitute the default category and return normally —
the pydantic coercion of the category field fails and the error propagates
out of the classification call. -/
theorem claim_C1_counterexample :
    processor_classify_email (.ok ⟨"banana", none, 1⟩) "Hello" "World" =
      .error "validation error: category is not a valid EmailCategory" := by
  decide

/-- Claim C1, amended: no classification ever carries an out-of-set category,
but only the Sheets classifier (`enhanced_email_classifier.py`) coerces an
out-of-set completion answer to the default category and returns normally;
`EmailProcessor.classify_email` instead raises a validation error on an
out-of-set category string (whenever it does return, the category is a
declared enum member). -/
theorem claim_C1_amended :
    (∀ (oracle : Nat → AttemptOutcome) (rc : Nat),
        classify_email oracle rc ∈ Config.VALID_CATEGORIES) ∧
    (∀ (ai : AIClassification) (subject body : String) (cls : EmailClassification),
        processor_classify_email (.ok ai) subject body = .ok cls →
        EmailCategory.ofValue? ai.category = some cls.category) ∧
    (∀ (ai : AIClassification) (subject body : String),
        EmailCategory.ofValue? ai.category = none →
        ∃ e, processor_classify_email (.ok ai) subject body = .error e) := by
  refine ⟨classify_email_mem_valid, ?_, ?_⟩
  · intro ai subject body cls h
    simp only [processor_classify_email, mk_email_classification] at h
    split at h
    · simp at h
    · rename_i cat heq
      split at h
      · simp only [Except.ok.injEq] at h
        rw [heq, ← h]
      · simp at h
  · intro ai subject body hv
    refine ⟨"validation error: category is not a valid EmailCategory", ?_⟩
    simp only [processor_classify_email, mk_email_classification, hv]

/-- Witness for claim C1's amended statement at concrete inputs. -/
theorem claim_C1_witness :
    classify_email oracleAllFail 0 ∈ Config.VALID_CATEGORIES ∧
    EmailCategory.ofValue? "support" =
      some (⟨.support, none, .low, .neutral, 1, ["subject", "body"], []⟩ :
        EmailClassification).category ∧
    ∃ e, processor_classify_email (.ok ⟨"widget", none, 1⟩) "s" "b" = .error e := by
  refine ⟨claim_C1_amended.1 oracleAllFail 0, ?_, claim_C1_amended.2.2 ⟨"widget", none, 1⟩ "s" "b" (by decide)⟩
  exact claim_C1_amended.2.1 ⟨"support", none, 1⟩ "s" "b"
    ⟨.support, none, .low, .neutral, 1, ["subject", "body"], []⟩ (by decide)

/-! ## Claim C4 -/

/-- Claim C4: the derived priority is a pure function of the email text and
the category string: an urgent keyword occurring (case-insensitively) in the
combined subject and body forces `urgent` whatever the category; otherwise
`complaint` maps to `high`, `technical` and `billing` map to `medium`, and
every other category value maps to `low`. -/
theorem claim_C4_priority :
    (∀ (subject body : String) (category : Option String),
        urgent_keywords.any (fun keyword =>
          strContains (strToLower (subject ++ " " ++ body)) keyword) = true →
        determine_priority subject body category = .urgent) ∧
    (∀ (subject body : String) (category : Option String),
        urgent_keywords.any (fun keyword =>
          strContains (strToLower (subject ++ " " ++ body)) keyword) = false →
        (category = some "complaint" → determine_priority subject body category = .high) ∧
        (category = some "technical" ∨ category = some "billing" →
          determine_priority subject body category = .medium) ∧
        (category ≠ some "complaint" → category ≠ some "technical" →
          category ≠ some "billing" → determine_priority subject body category = .low)) := by
  constructor
  · intro subject body category h
    simp [determine_priority, h]
  · intro subject body category h
    refine ⟨?_, ?_, ?_⟩
    · intro hc; simp [determine_priority, h, hc]
    · intro hc; rcases hc with hc | hc <;> simp [determine_priority, h, hc]
    · intro h1 h2 h3; simp [determine_priority, h, h1, h2, h3]

/-- Witness for claim C4 at concrete emails, one per priority rule. -/
theorem claim_C4_witness :
    determine_priority "URGENT: system is down" "please help" (some "order") = .urgent ∧
    determine_priority "hello" "just a note" (some "complaint") = .high ∧
    determine_priority "hello" "just a note" (some "billing") = .medium ∧
    determine_priority "hello" "just a note" (some "inquiry") = .low :=
  ⟨claim_C4_priority.1 _ _ _ (by decide),
   (claim_C4_priority.2 _ _ _ (by decide)).1 rfl,
   (claim_C4_priority.2 _ _ _ (by decide)).2.1 (Or.inr rfl),
   (claim_C4_priority.2 _ _ _ (by decide)).2.2 (by decide) (by decide) (by decide)⟩

/-! ## Claim C5 -/

/-- Claim C5: sentiment analysis counts which fixed positive keywords and
which fixed negative keywords occur in the lowercased text (case-insensitive
substring matching) and returns `positive`, `negative`, or `neutral`
according to the comparison of the two counts, ties resolving to `neutral`;
the three concrete example texts of the specification classify accordingly.
As a Lean function of the text, it is pure by construction. -/
theorem claim_C5_sentiment :
    (∀ text : String,
        negative_keywords.countP (fun word => strContains (strToLower text) word) <
          positive_keywords.countP (fun word => strContains (strToLower text) word) →
        analyze_sentiment text = .positive) ∧
    (∀ text : String,
        positive_keywords.countP (fun word => strContains (strToLower text) word) <
          negative_keywords.countP (fun word => strContains (strToLower text) word) →
        analyze_sentiment text = .negative) ∧
    (∀ text : String,
        positive_keywords.countP (fun word => strContains (strToLower text) word) =
          negative_keywords.countP (fun word => strContains (strToLower text) word) →
        analyze_sentiment text = .neutral) ∧
    analyze_sentiment "Thank you, excellent service!" = .positive ∧
    analyze_sentiment "This is terrible and broken" = .negative ∧
    analyze_sentiment "Please provide an update" = .neutral := by
  refine ⟨?_, ?_, ?_, by decide, by decide, by decide⟩
  · intro text h
    simp [analyze_sentiment, h]
  · intro text h
    simp [analyze_sentiment, h, Nat.lt_asymm h]
  · intro text h
    simp [analyze_sentiment, h]

/-- Witness for claim C5's counting rules at concrete texts. -/
theorem claim_C5_witness :
    analyze_sentiment "thank you" = .positive ∧
    analyze_sentiment "how awful" = .negative ∧
    analyze_sentiment "no opinion" = .neutral :=
  ⟨claim_C5_sentiment.1 _ (by decide),
   claim_C5_sentiment.2.1 _ (by decide),
   claim_C5_sentiment.2.2.1 _ (by decide)⟩

/-! ## Lemmas about the regex engine -/

/-- Every candidate match end lies between the start position and the end of
the text. -/
theorem mlist_stop_le (fuel : Nat) :
    ∀ (re : RE) (t : List Char) (p : Nat), p ≤ t.length →
      ∀ r ∈ mlist fuel re t p, p ≤ r.stop ∧ r.stop ≤ t.length := by
  induction fuel with
  | zero => intro re t p _ r hr; simp [mlist] at hr
  | succ fuel ih =>
    intro re t p hp r hr
    cases re with
    | eps =>
      simp [mlist] at hr
      subst hr
      exact ⟨le_rfl, hp⟩
    | cls f =>
      simp only [mlist] at hr
      split at hr
      · rename_i c heq
        split at hr
        · simp only [List.mem_singleton] at hr
          subst hr
          obtain ⟨hlt, -⟩ := List.get?_eq_some.mp heq
          exact ⟨Nat.le_succ p, hlt⟩
        · simp at hr
      · simp at hr
    | seq a b =>
      simp only [mlist, List.mem_flatMap, List.mem_map] at hr
      obtain ⟨r1, hr1, s, hs, rfl⟩ := hr
      have h1 := ih a t p hp r1 hr1
      have h2 := ih b t r1.stop h1.2 s hs
      exact ⟨le_trans h1.1 h2.1, h2.2⟩
    | alt a b =>
      simp only [mlist, List.mem_append] at hr
      rcases hr with hr | hr
      exacts [ih a t p hp r hr, ih b t p hp r hr]
    | star a =>
      simp only [mlist, List.mem_append, List.mem_flatMap, List.mem_singleton] at hr
      rcases hr with ⟨r1, hr1, hr⟩ | rfl
      · split at hr
        · simp only [List.mem_map] at hr
          obtain ⟨s, hs, rfl⟩ := hr
          have h1 := ih a t p hp r1 hr1
          have h2 := ih (.star a) t r1.stop h1.2 s hs
          exact ⟨le_trans h1.1 h2.1, h2.2⟩
        · simp at hr
      · exact ⟨le_rfl, hp⟩
    | wordB =>
      simp only [mlist] at hr
      split at hr
      · simp at hr; subst hr; exact ⟨le_rfl, hp⟩
      · simp at hr
    | group a =>
      simp only [mlist, List.mem_map] at hr
      obtain ⟨s, hs, rfl⟩ := hr
      exact ih a t p hp s hs

/-- Soundness of the matcher for the declarative semantics. -/
theorem mlist_matches (fuel : Nat) :
    ∀ (re : RE) (t : List Char) (p : Nat) (r : MRes),
      r ∈ mlist fuel re t p → Matches re t p r.stop := by
  induction fuel with
  | zero => intro re t p r hr; simp [mlist] at hr
  | succ fuel ih =>
    intro re t p r hr
    cases re with
    | eps => simp [mlist] at hr; subst hr; exact .eps
    | cls f =>
      simp only [mlist] at hr
      split at hr
      · rename_i c heq
        split at hr
        · rename_i hf
          simp only [List.mem_singleton] at hr
          subst hr
          exact .cls heq hf
        · simp at hr
      · simp at hr
    | seq a b =>
      simp only [mlist, List.mem_flatMap, List.mem_map] at hr
      obtain ⟨r1, hr1, s, hs, rfl⟩ := hr
      exact .seqm (ih a t p r1 hr1) (ih b t r1.stop s hs)
    | alt a b =>
      simp only [mlist, List.mem_append] at hr
      rcases hr with hr | hr
      exacts [.altL (ih a t p r hr), .altR (ih b t p r hr)]
    | star a =>
      simp only [mlist, List.mem_append, List.mem_flatMap, List.mem_singleton] at hr
      rcases hr with ⟨r1, hr1, hr⟩ | rfl
      · split at hr
        · simp only [List.mem_map] at hr
          obtain ⟨s, hs, rfl⟩ := hr
          exact .starCons (ih a t p r1 hr1) (ih (.star a) t r1.stop s hs)
        · simp at hr
      · exact .starNil
    | wordB =>
      simp only [mlist] at hr
      split at hr
      · rename_i hb; simp at hr; subst hr; exact .wordBm hb
      · simp at hr
    | group a =>
      simp only [mlist, List.mem_map] at hr
      obtain ⟨s, hs, rfl⟩ := hr
      exact .groupm (ih a t p s hs)

/-- A pattern without capturing groups never reports a group span. -/
theorem mlist_grp_none (fuel : Nat) :
    ∀ (re : RE), hasGroup re = false →
      ∀ (t : List Char) (p : Nat) (r : MRes), r ∈ mlist fuel re t p → r.grp = none := by
  induction fuel with
  | zero => intro re _ t p r hr; simp [mlist] at hr
  | succ fuel ih =>
    intro re hgrp t p r hr
    cases re with
    | eps => simp [mlist] at hr; subst hr; rfl
    | cls f =>
      simp only [mlist] at hr
      split at hr
      · split at hr
        · simp only [List.mem_singleton] at hr
          subst hr; rfl
        · simp at hr
      · simp at hr
    | seq a b =>
      simp only [hasGroup, Bool.or_eq_false_iff] at hgrp
      simp only [mlist, List.mem_flatMap, List.mem_map] at hr
      obtain ⟨r1, hr1, s, hs, rfl⟩ := hr
      simp [ih a hgrp.1 t p r1 hr1, ih b hgrp.2 t r1.stop s hs]
    | alt a b =>
      simp only [hasGroup, Bool.or_eq_false_iff] at hgrp
      simp only [mlist, List.mem_append] at hr
      rcases hr with hr | hr
      exacts [ih a hgrp.1 t p r hr, ih b hgrp.2 t p r hr]
    | star a =>
      simp only [hasGroup] at hgrp
      simp only [mlist, List.mem_append, List.mem_flatMap, List.mem_singleton] at hr
      rcases hr with ⟨r1, hr1, hr⟩ | rfl
      · split at hr
        · simp only [List.mem_map] at hr
          obtain ⟨s, hs, rfl⟩ := hr
          simp [ih a hgrp t p r1 hr1, ih (.star a) (by simpa [hasGroup] using hgrp) t r1.stop s hs]
        · simp at hr
      · rfl
    | wordB =>
      simp only [mlist] at hr
      split at hr
      · simp at hr; subst hr; rfl
      · simp at hr
    | group a => simp [hasGroup] at hgrp

/-- A successful scanning search yields a start position at or after the
requested one, within the text, and an actual matcher result at it. -/
theorem searchFrom_eq_some (fu : Nat) :
    ∀ (re : RE) (t : List Char) (p s : Nat) (r : MRes), p ≤ t.length →
      searchFrom fu re t p = some (s, r) →
      (p ≤ s ∧ s ≤ t.length) ∧ r ∈ mlist (matchFuel re t) re t s := by
  induction fu with
  | zero => intro re t p s r _ h; simp [searchFrom] at h
  | succ fu ih =>
    intro re t p s r hp h
    simp only [searchFrom] at h
    split at h
    · rename_i r0 hh
      simp only [Option.some.injEq, Prod.mk.injEq] at h
      obtain ⟨rfl, rfl⟩ := h
      exact ⟨⟨le_rfl, hp⟩, List.mem_of_mem_head? (by rw [hh]; rfl)⟩
    · split at h
      · rename_i hlt
        have hrec := ih re t (p+1) s r (by omega) h
        exact ⟨⟨by omega, hrec.1.2⟩, hrec.2⟩
      · simp at h

/-- The match start positions reported by the scanner strictly increase, so
every `findall` result list is in document order. -/
theorem findallAux_mono (fu : Nat) :
    ∀ (re : RE) (t : List Char) (p : Nat),
      (∀ x ∈ findallAux fu re t p, p ≤ x.1) ∧
      (findallAux fu re t p).Pairwise (fun a b => a.1 < b.1) := by
  induction fu with
  | zero => intro re t p; simp [findallAux]
  | succ fu ih =>
    intro re t p
    by_cases hp : p ≤ t.length
    · cases hs : searchFrom (t.length + 1 - p) re t p with
      | none => simp [findallAux, hs]
      | some sr =>
        obtain ⟨s, r⟩ := sr
        have hb := searchFrom_eq_some _ re t p s r hp hs
        have hstep : findallAux (fu+1) re t p =
            (s, match r.grp with
                | some (gs, ge) => sliceL t gs ge
                | none => sliceL t s r.stop) ::
              findallAux fu re t (if s < r.stop then r.stop else s + 1) := by
          simp only [findallAux, hs]
        set p2 := (if s < r.stop then r.stop else s + 1) with hp2
        have hsp : s < p2 := by rw [hp2]; split <;> omega
        have hih := ih re t p2
        rw [hstep]
        constructor
        · intro x hx
          rcases List.mem_cons.mp hx with rfl | hx
          · exact hb.1.1
          · have := hih.1 x hx
            have := hb.1.1
            omega
        · refine List.Pairwise.cons ?_ hih.2
          intro b hb2
          have := hih.1 b hb2
          omega
    · have h0 : t.length + 1 - p = 0 := by omega
      simp [findallAux, h0, searchFrom]

/-- Document order of `findall` results, at the top level. -/
theorem findallP_mono (re : RE) (t : List Char) :
    (findallP re t).Pairwise (fun a b => a.1 < b.1) :=
  (findallAux_mono (t.length + 1) re t 0).2

/-- Every value reported by the scanner of a groupless pattern is the slice
of an actual match of the pattern. -/
theorem findallAux_value (fu : Nat) :
    ∀ (re : RE), hasGroup re = false → ∀ (t : List Char) (p : Nat),
      ∀ x ∈ findallAux fu re t p,
        ∃ e, Matches re t x.1 e ∧ e ≤ t.length ∧ x.2 = sliceL t x.1 e := by
  induction fu with
  | zero => intro re _ t p x hx; simp [findallAux] at hx
  | succ fu ih =>
    intro re hgrp t p x hx
    by_cases hp : p ≤ t.length
    · cases hs : searchFrom (t.length + 1 - p) re t p with
      | none => simp [findallAux, hs] at hx
      | some sr =>
        obtain ⟨s, r⟩ := sr
        have hb := searchFrom_eq_some _ re t p s r hp hs
        have hr0 : r.grp = none := mlist_grp_none _ re hgrp t s r hb.2
        have hstep : findallAux (fu+1) re t p =
            (s, match r.grp with
                | some (gs, ge) => sliceL t gs ge
                | none => sliceL t s r.stop) ::
              findallAux fu re t (if s < r.stop then r.stop else s + 1) := by
          simp only [findallAux, hs]
        rw [hstep] at hx
        rcases List.mem_cons.mp hx with rfl | hx
        · refine ⟨r.stop, mlist_matches _ re t s r hb.2, ?_, ?_⟩
          · exact (mlist_stop_le _ re t s hb.1.2 r hb.2).2
          · rw [hr0]
        · exact ih re hgrp t _ x hx
    · have h0 : t.length + 1 - p = 0 := by omega
      simp [findallAux, h0, searchFrom] at hx

/-- Every `findall` value of a groupless pattern is the slice of a match. -/
theorem findall_mem_shape (re : RE) (t : List Char) (hgrp : hasGroup re = false)
    (v : List Char) (hv : v ∈ findall re t) :
    ∃ s e, Matches re t s e ∧ e ≤ t.length ∧ v = sliceL t s e := by
  simp only [findall, findallP, List.mem_map] at hv
  obtain ⟨x, hx, rfl⟩ := hv
  obtain ⟨e, hm, hlen, hval⟩ := findallAux_value _ re hgrp t 0 x hx
  exact ⟨x.1, e, hm, hlen, hval⟩

/-! ## Inversion facts about the declarative semantics -/

theorem matches_cls_inv {f : Char → Bool} {t : List Char} {p q : Nat}
    (h : Matches (.cls f) t p q) :
    q = p + 1 ∧ ∃ c, t.get? p = some c ∧ f c = true := by
  cases h with
  | cls hg hf => exact ⟨rfl, _, hg, hf⟩

theorem matches_wordB_inv {t : List Char} {p q : Nat} (h : Matches .wordB t p q) : q = p := by
  cases h; rfl

theorem matches_seq_inv {a b : RE} {t : List Char} {p q : Nat}
    (h : Matches (.seq a b) t p q) : ∃ m, Matches a t p m ∧ Matches b t m q := by
  cases h with
  | seqm h1 h2 => exact ⟨_, h1, h2⟩

/-- A match of a starred character class covers characters of the class only. -/
theorem matches_star_cls_aux {t : List Char} {re : RE} {p q : Nat} (h : Matches re t p q) :
    ∀ f : Char → Bool, re = .star (.cls f) →
      p ≤ q ∧ ∀ i, p ≤ i → i < q → ∃ c, t.get? i = some c ∧ f c = true := by
  induction h with
  | eps => intro f hre; exact absurd hre (by simp)
  | cls _ _ => intro f hre; exact absurd hre (by simp)
  | seqm _ _ _ _ => intro f hre; exact absurd hre (by simp)
  | altL _ _ => intro f hre; exact absurd hre (by simp)
  | altR _ _ => intro f hre; exact absurd hre (by simp)
  | wordBm _ => intro f hre; exact absurd hre (by simp)
  | groupm _ _ => intro f hre; exact absurd hre (by simp)
  | starNil =>
    intro f hre
    exact ⟨le_rfl, fun i h1 h2 => ((by omega : False)).elim⟩
  | starCons h1 h2 ih1 ih2 =>
    intro f hre
    injection hre with ha
    subst ha
    obtain ⟨hq1, c, hg, hf⟩ := matches_cls_inv h1
    subst hq1
    obtain ⟨hle, hchars⟩ := ih2 f rfl
    refine ⟨by omega, fun i hi1 hi2 => ?_⟩
    rcases Nat.eq_or_lt_of_le hi1 with rfl | hlt
    · exact ⟨c, hg, hf⟩
    · exact hchars i (by omega) hi2

/-- A match of `{n}` over a character class covers exactly `n` characters of
the class. -/
theorem matches_rep_cls {f : Char → Bool} {t : List Char} :
    ∀ (n : Nat) {p q : Nat}, Matches (rep n (.cls f)) t p q →
      q = p + n ∧ ∀ i, p ≤ i → i < q → ∃ c, t.get? i = some c ∧ f c = true := by
  intro n
  induction n with
  | zero =>
    intro p q h
    simp only [rep] at h
    cases h
    exact ⟨by omega, fun i h1 h2 => ((by omega : False)).elim⟩
  | succ n ihn =>
    intro p q h
    simp only [rep] at h
    obtain ⟨m, h1, h2⟩ := matches_seq_inv h
    obtain ⟨hm, c, hg, hf⟩ := matches_cls_inv h1
    subst hm
    obtain ⟨hq, hchars⟩ := ihn h2
    refine ⟨by omega, fun i hi1 hi2 => ?_⟩
    rcases Nat.eq_or_lt_of_le hi1 with rfl | hlt
    · exact ⟨c, hg, hf⟩
    · exact hchars i (by omega) hi2

/-- Every match of the keyword-token pattern covers at least three
characters, all alphabetic. -/
theorem matches_wordToken {t : List Char} {s e : Nat} (h : Matches wordTokenRE t s e) :
    s + 3 ≤ e ∧ ∀ i, s ≤ i → i < e → ∃ c, t.get? i = some c ∧ isAsciiAlpha c = true := by
  simp only [wordTokenRE, repAtLeast] at h
  obtain ⟨m1, hb1, h2⟩ := matches_seq_inv h
  have hm1 := (matches_wordB_inv hb1).symm
  subst hm1
  obtain ⟨m2, hrep, hb2⟩ := matches_seq_inv h2
  have he := matches_wordB_inv hb2
  subst he
  obtain ⟨m3, h3, hstar⟩ := matches_seq_inv hrep
  obtain ⟨hm3, hchars3⟩ := matches_rep_cls 3 h3
  subst hm3
  obtain ⟨hle, hchars⟩ := matches_star_cls_aux hstar _ rfl
  refine ⟨by omega, fun i hi1 hi2 => ?_⟩
  by_cases hcase : i < s + 3
  · exact hchars3 i hi1 hcase
  · exact hchars i (by omega) hi2

/-! ## Slice lemmas -/

theorem length_sliceL {t : List Char} {s e : Nat} (he : e ≤ t.length) :
    (sliceL t s e).length = e - s := by
  simp only [sliceL, List.length_take, List.length_drop]
  omega

theorem mem_sliceL {t : List Char} {s e : Nat} {c : Char} (hc : c ∈ sliceL t s e) :
    ∃ i, s ≤ i ∧ i < e ∧ t.get? i = some c := by
  simp only [sliceL] at hc
  obtain ⟨n, hn⟩ := List.mem_iff_get?.mp hc
  have hnlt : n < e - s := by
    obtain ⟨hlen, -⟩ := List.get?_eq_some.mp hn
    simp only [List.length_take] at hlen
    omega
  rw [List.get?_take hnlt, List.get?_drop] at hn
  exact ⟨s + n, by omega, by omega, hn⟩

/-- Every value returned by `findall` for the keyword-token pattern has at
least three characters, all alphabetic. -/
theorem findall_wordToken_facts (t : List Char) (v : List Char)
    (hv : v ∈ findall wordTokenRE t) :
    3 ≤ v.length ∧ ∀ c ∈ v, isAsciiAlpha c = true := by
  obtain ⟨s, e, hm, helen, rfl⟩ := findall_mem_shape wordTokenRE t (by rfl) v hv
  obtain ⟨h3, hch⟩ := matches_wordToken hm
  constructor
  · rw [length_sliceL helen]; omega
  · intro c hc
    obtain ⟨i, hi1, hi2, hg⟩ := mem_sliceL hc
    obtain ⟨c2, hg2, hf⟩ := hch i hi1 hi2
    rw [hg] at hg2
    injection hg2 with hcc
    rwa [hcc]

/-! ## Claim C6 -/

/-- Counterexample to claim C6 as stated: entity extraction does not return
its entities in document order.  In `order 5 at a@b.co` the order-identifier
match starts at position 0 and the email match at position 11, yet the
returned list places the email entity before the order entity, because the
source appends all email matches first, then phones, then order identifiers,
then amounts. -/
theorem claim_C6_counterexample :
    extract_entities "order 5 at a@b.co" =
      [⟨"email", "a@b.co"⟩, ⟨"order_id", "5"⟩] ∧
    (findallP orderRE "order 5 at a@b.co".data).map (fun x => x.1) = [0] ∧
    (findallP emailRE "order 5 at a@b.co".data).map (fun x => x.1) = [11] :=
  ⟨by decide, by decide, by decide⟩

/-- Filtering a list of identically tagged entities by a type tag keeps all
of it or none of it. -/
theorem filter_map_tag (p tag : String) (l : List (List Char)) :
    List.filter (fun en => en.type = p) (l.map (fun v => (⟨tag, String.mk v⟩ : Entity))) =
      if tag = p then l.map (fun v => (⟨tag, String.mk v⟩ : Entity)) else [] := by
  induction l with
  | nil => simp
  | cons x xs ih =>
    by_cases htag : tag = p <;> simp [List.filter_cons, htag, ih]

/-- Claim C6, amended: entity extraction returns the matched email-address,
phone-number, order-identifier and dollar-amount entities as type/value
pairs without deduplication, grouped by entity type (all email entities,
then all phone entities, then all order identifiers, then all amounts)
rather than in global document order, each group listing its matches in
document order (match start positions strictly increase within a group);
on the specification's example input it yields exactly the email entity
`john.doe@example.com`, a phone entity `555-123-4567`, the order-id entity
`12345` and the money entity `$49.99`. -/
theorem claim_C6_amended :
    (∀ text : String,
      (extract_entities text).filter (fun en => en.type = "email") =
        (findall emailRE text.data).map (fun v => ⟨"email", String.mk v⟩) ∧
      (extract_entities text).filter (fun en => en.type = "phone") =
        (findall phoneRE text.data).map (fun v => ⟨"phone", String.mk v⟩) ∧
      (extract_entities text).filter (fun en => en.type = "order_id") =
        (findall orderRE text.data).map (fun v => ⟨"order_id", String.mk v⟩) ∧
      (extract_entities text).filter (fun en => en.type = "money") =
        (findall moneyRE text.data).map (fun v => ⟨"money", String.mk v⟩)) ∧
    (∀ (re : RE) (t : List Char), (findallP re t).Pairwise (fun a b => a.1 < b.1)) ∧
    extract_entities entityExampleText =
      [⟨"email", "john.doe@example.com"⟩, ⟨"phone", "555-123-4567"⟩,
       ⟨"order_id", "12345"⟩, ⟨"money", "$49.99"⟩] ∧
    extract_entities "$5 and $5" = [⟨"money", "$5"⟩, ⟨"money", "$5"⟩] := by
  refine ⟨?_, fun re t => findallP_mono re t, by decide, by decide⟩
  intro text
  refine ⟨?_, ?_, ?_, ?_⟩ <;>
    simp [extract_entities, List.filter_append, filter_map_tag]

/-! ## Lemmas about the stable descending sort and the frequency dictionary -/

theorem insertByCountDesc_mem {x y : String × Nat} {l : List (String × Nat)} :
    x ∈ insertByCountDesc y l ↔ x = y ∨ x ∈ l := by
  induction l with
  | nil => simp [insertByCountDesc]
  | cons z zs ih =>
    simp only [insertByCountDesc]
    split
    · simp [List.mem_cons]
      try tauto
    · simp [List.mem_cons, ih]
      try tauto

theorem insertByCountDesc_sorted {y : String × Nat} {l : List (String × Nat)}
    (hl : l.Pairwise (fun a b => b.2 ≤ a.2)) :
    (insertByCountDesc y l).Pairwise (fun a b => b.2 ≤ a.2) := by
  induction l with
  | nil => simp [insertByCountDesc]
  | cons z zs ih =>
    rcases List.pairwise_cons.mp hl with ⟨hz, hzs⟩
    simp only [insertByCountDesc]
    split
    · rename_i hlt
      refine List.Pairwise.cons ?_ hl
      intro b hb
      rcases List.mem_cons.mp hb with rfl | hb
      · omega
      · have := hz b hb; omega
    · rename_i hge
      refine List.Pairwise.cons ?_ (ih hzs)
      intro b hb
      rcases insertByCountDesc_mem.mp hb with rfl | hb
      · omega
      · exact hz b hb

/-- Stable insertion into a sorted list places the new entry after all
entries of its own count class. -/
theorem insertByCountDesc_filter {y : String × Nat} {l : List (String × Nat)}
    (hl : l.Pairwise (fun a b => b.2 ≤ a.2)) (c : Nat) :
    (insertByCountDesc y l).filter (fun x => x.2 = c) =
      if y.2 = c then l.filter (fun x => x.2 = c) ++ [y]
      else l.filter (fun x => x.2 = c) := by
  induction l with
  | nil => by_cases hy : y.2 = c <;> simp [insertByCountDesc, hy]
  | cons z zs ih =>
    rcases List.pairwise_cons.mp hl with ⟨hz, hzs⟩
    simp only [insertByCountDesc]
    split
    · rename_i hlt
      by_cases hy : y.2 = c
      · have hnil : (z :: zs).filter (fun x => x.2 = c) = [] := by
          rw [List.filter_eq_nil]
          intro a ha
          rcases List.mem_cons.mp ha with rfl | ha
          · simp; omega
          · have := hz a ha; simp; omega
        simp [List.filter_cons, hy, hnil]
      · simp [List.filter_cons, hy]
    · rename_i hge
      by_cases hz2 : z.2 = c <;> by_cases hy : y.2 = c <;>
        simp [List.filter_cons, hz2, hy, ih hzs]

theorem foldl_insert_sorted (l : List (String × Nat)) :
    ∀ acc, acc.Pairwise (fun a b => b.2 ≤ a.2) →
      (l.foldl (fun acc x => insertByCountDesc x acc) acc).Pairwise (fun a b => b.2 ≤ a.2) := by
  induction l with
  | nil => intro acc h; simpa using h
  | cons x xs ih => intro acc h; exact ih _ (insertByCountDesc_sorted h)

theorem foldl_insert_filter (l : List (String × Nat)) :
    ∀ acc, acc.Pairwise (fun a b => b.2 ≤ a.2) → ∀ c,
      (l.foldl (fun acc x => insertByCountDesc x acc) acc).filter (fun x => x.2 = c) =
        acc.filter (fun x => x.2 = c) ++ l.filter (fun x => x.2 = c) := by
  induction l with
  | nil => intro acc h c; simp
  | cons x xs ih =>
    intro acc h c
    simp only [List.foldl_cons]
    rw [ih _ (insertByCountDesc_sorted h) c, insertByCountDesc_filter h c]
    by_cases hx : x.2 = c <;> simp [List.filter_cons, hx]

theorem foldl_insert_mem (l : List (String × Nat)) :
    ∀ acc x, x ∈ l.foldl (fun acc y => insertByCountDesc y acc) acc → x ∈ acc ∨ x ∈ l := by
  induction l with
  | nil => intro acc x h; left; simpa using h
  | cons y ys ih =>
    intro acc x h
    rcases ih _ x h with h2 | h2
    · rcases insertByCountDesc_mem.mp h2 with rfl | h3
      · right; exact List.mem_cons_self _ _
      · left; exact h3
    · right; exact List.mem_cons_of_mem _ h2

/-- The stable sort is sorted by descending count. -/
theorem sortByCountDesc_sorted (l : List (String × Nat)) :
    (sortByCountDesc l).Pairwise (fun a b => b.2 ≤ a.2) :=
  foldl_insert_sorted l [] (by simp)

/-- Stability of the sort: each count class keeps its original order. -/
theorem sortByCountDesc_filter (l : List (String × Nat)) (c : Nat) :
    (sortByCountDesc l).filter (fun x => x.2 = c) = l.filter (fun x => x.2 = c) := by
  simpa using foldl_insert_filter l [] (by simp) c

theorem sortByCountDesc_mem (l : List (String × Nat)) (x : String × Nat)
    (h : x ∈ sortByCountDesc l) : x ∈ l := by
  rcases foldl_insert_mem l [] x h with h2 | h2
  · simp at h2
  · exact h2

/-- The dict update of `extract_keywords` adjusts exactly the touched key's
count. -/
theorem bump_lookup (acc : List (String × Nat)) (w u : String) :
    lookupCount (bump acc w) u = lookupCount acc u + (if u = w then 1 else 0) := by
  induction acc with
  | nil => by_cases h : u = w <;> simp [bump, lookupCount, h, Ne.symm]
  | cons z zs ih =>
    obtain ⟨k, n⟩ := z
    by_cases hk : k = w
    · rw [show bump ((k, n) :: zs) w = (k, n + 1) :: zs from by simp [bump, hk]]
      by_cases hku : k = u
      · have h1 : u = w := by rw [← hku, hk]
        simp [lookupCount, hku, h1]
      · simp only [lookupCount, hku, if_false]
        have h2 : ¬ (u = w) := fun h => hku (by rw [hk, h])
        simp [h2]
    · rw [show bump ((k, n) :: zs) w = (k, n) :: bump zs w from by simp [bump, hk]]
      by_cases hku : k = u
      · have h2 : ¬ (u = w) := fun h => hk (by rw [hku, h])
        simp [lookupCount, hku, h2]
      · simp [lookupCount, hku, ih]

/-- The keys of the dict after an update: unchanged when the key was
present, the key appended when it was new. -/
theorem bump_keys (acc : List (String × Nat)) (w : String) :
    (bump acc w).map (fun x => x.1) =
      if w ∈ acc.map (fun x => x.1) then acc.map (fun x => x.1)
      else acc.map (fun x => x.1) ++ [w] := by
  induction acc with
  | nil => simp [bump]
  | cons z zs ih =>
    obtain ⟨k, n⟩ := z
    by_cases hk : k = w
    · subst hk; simp [bump]
    · by_cases hw : w ∈ zs.map (fun x => x.1) <;>
        simp [bump, hk, ih, hw, Ne.symm hk]

/-- The frequency dict of a text has pairwise distinct keys. -/
theorem word_freq_keys_nodup (text : String) :
    ((word_freq text).map (fun x => x.1)).Nodup := by
  have H : ∀ (ws : List String) (acc : List (String × Nat)),
      ((acc.map (fun x => x.1)).Nodup) →
      (((ws.foldl (fun acc word => if word ∈ stop_words then acc else bump acc word) acc).map
        (fun x => x.1)).Nodup) := by
    intro ws
    induction ws with
    | nil => intro acc h; simpa using h
    | cons w ws ih =>
      intro acc h
      simp only [List.foldl_cons]
      by_cases hs : w ∈ stop_words
      · rw [if_pos hs]; exact ih acc h
      · rw [if_neg hs]
        refine ih _ ?_
        rw [bump_keys]
        split
        · exact h
        · rename_i hnotin
          refine List.Nodup.append h (by simp) ?_
          intro a ha hb
          simp only [List.mem_singleton] at hb
          subst hb
          exact hnotin ha
  exact H (tokensOf text) [] (by simp)

/-- Looking up a stored pair in a distinct-keyed association list returns
its stored count. -/
theorem lookupCount_of_mem {l : List (String × Nat)}
    (hnd : (l.map (fun x => x.1)).Nodup) {w : String} {n : Nat}
    (hmem : (w, n) ∈ l) : lookupCount l w = n := by
  induction l with
  | nil => simp at hmem
  | cons z zs ih =>
    obtain ⟨k, m⟩ := z
    simp only [List.map_cons, List.nodup_cons] at hnd
    rcases List.mem_cons.mp hmem with heq | hmem2
    · obtain ⟨rfl, rfl⟩ := Prod.mk.injEq .. ▸ heq
      simp [lookupCount]
    · have hw : w ∈ zs.map (fun x => x.1) := by
        refine List.mem_map.mpr ⟨(w, n), hmem2, rfl⟩
      have hk : ¬ (k = w) := fun h => hnd.1 (h ▸ hw)
      simp [lookupCount, hk, ih hnd.2 hmem2]

/-- The dict built by `extract_keywords` stores the frequency of every
retained token. -/
theorem word_freq_lookup (text : String) (w : String) :
    lookupCount (word_freq text) w =
      ((tokensOf text).filter (fun u => u ∉ stop_words)).count w := by
  have H : ∀ (ws : List String) (acc : List (String × Nat)),
      lookupCount
        (ws.foldl (fun acc word => if word ∈ stop_words then acc else bump acc word) acc) w =
        lookupCount acc w + (ws.filter (fun u => u ∉ stop_words)).count w := by
    intro ws
    induction ws with
    | nil => intro acc; simp
    | cons u us ih =>
      intro acc
      simp only [List.foldl_cons, List.filter_cons]
      by_cases hs : u ∈ stop_words
      · rw [if_pos hs]
        simp [hs, ih]
      · rw [if_neg hs]
        rw [ih (bump acc u), bump_lookup acc u w]
        by_cases hwu : w = u <;> simp [hs, List.count_cons, hwu] <;> omega
  simpa [word_freq, lookupCount] using H (tokensOf text) []

/-- Every entry of the frequency dict comes from a retained token. -/
theorem word_freq_mem (text : String) (x : String × Nat) (hx : x ∈ word_freq text) :
    x.1 ∈ tokensOf text ∧ x.1 ∉ stop_words := by
  have H : ∀ (ws : List String) (acc : List (String × Nat)),
      ∀ x ∈ ws.foldl (fun acc word => if word ∈ stop_words then acc else bump acc word) acc,
        (x.1 ∈ acc.map (fun y => y.1)) ∨ (x.1 ∈ ws ∧ x.1 ∉ stop_words) := by
    intro ws
    induction ws with
    | nil =>
      intro acc x h
      left
      exact List.mem_map.mpr ⟨x, by simpa using h, rfl⟩
    | cons u us ih =>
      intro acc x h
      simp only [List.foldl_cons] at h
      by_cases hs : u ∈ stop_words
      · rw [if_pos hs] at h
        rcases ih acc x h with h2 | h2
        · left; exact h2
        · right; exact ⟨List.mem_cons_of_mem _ h2.1, h2.2⟩
      · rw [if_neg hs] at h
        rcases ih (bump acc u) x h with h2 | h2
        · rw [bump_keys] at h2
          split at h2
          · left; exact h2
          · rcases List.mem_append.mp h2 with h3 | h3
            · left; exact h3
            · simp only [List.mem_singleton] at h3
              right
              exact ⟨h3 ▸ List.mem_cons_self u us, h3 ▸ hs⟩
        · right; exact ⟨List.mem_cons_of_mem _ h2.1, h2.2⟩
  have := H (tokensOf text) [] x (by simpa [word_freq] using hx)
  simpa using this

/-! ## Claim C9 -/

/-- Claim C9: keyword extraction lowercases the text, keeps only alphabetic
tokens of length at least three that are not stop words, counts token
frequency in the dict, and returns the top `max_keywords` tokens by
descending frequency with ties kept in first-seen (insertion) order — the
sort is stable, so each frequency class of the sorted dict lists its
entries exactly as the dict (which is in first-seen order) does; the
concrete example demonstrates both the frequency ordering and the stable
tie-break. -/
theorem claim_C9_keywords :
    (∀ (text : String) (k : Nat), (extract_keywords text k).length ≤ k) ∧
    (∀ (text : String) (k : Nat),
        (extract_keywords text k).Pairwise (fun a b =>
          lookupCount (word_freq text) b ≤ lookupCount (word_freq text) a)) ∧
    (∀ (text : String) (k : Nat) (w : String), w ∈ extract_keywords text k →
        w ∉ stop_words ∧ 3 ≤ w.data.length ∧ ∀ c ∈ w.data, isAsciiAlpha c = true) ∧
    (∀ (text : String) (c : Nat),
        (sortByCountDesc (word_freq text)).filter (fun x => x.2 = c) =
          (word_freq text).filter (fun x => x.2 = c)) ∧
    (∀ (text w : String),
        lookupCount (word_freq text) w =
          ((tokensOf text).filter (fun u => u ∉ stop_words)).count w) ∧
    extract_keywords "the cat and cat dog apple dog fox" 3 = ["cat", "dog", "apple"] := by
  refine ⟨?_, ?_, ?_, fun text c => sortByCountDesc_filter (word_freq text) c,
         fun text w => word_freq_lookup text w, by decide⟩
  · intro text k
    simp only [extract_keywords, List.length_map, List.length_take]
    omega
  · intro text k
    have hsor := sortByCountDesc_sorted (word_freq text)
    have htake := hsor.sublist (List.take_sublist k _)
    simp only [extract_keywords, List.pairwise_map]
    refine htake.imp_of_mem ?_
    intro a b ha hb hab
    have hma : a ∈ word_freq text :=
      sortByCountDesc_mem _ _ ((List.take_sublist k _).mem ha)
    have hmb : b ∈ word_freq text :=
      sortByCountDesc_mem _ _ ((List.take_sublist k _).mem hb)
    have hla : lookupCount (word_freq text) a.1 = a.2 :=
      lookupCount_of_mem (word_freq_keys_nodup text) (by simpa using hma)
    have hlb : lookupCount (word_freq text) b.1 = b.2 :=
      lookupCount_of_mem (word_freq_keys_nodup text) (by simpa using hmb)
    rw [hla, hlb]
    exact hab
  · intro text k w hw
    simp only [extract_keywords, List.mem_map] at hw
    obtain ⟨x, hx, rfl⟩ := hw
    have hmem : x ∈ word_freq text :=
      sortByCountDesc_mem _ _ ((List.take_sublist k _).mem hx)
    obtain ⟨htok, hstop⟩ := word_freq_mem text x hmem
    refine ⟨hstop, ?_⟩
    simp only [tokensOf, List.mem_map] at htok
    obtain ⟨v, hv, hveq⟩ := htok
    obtain ⟨hlen, halpha⟩ := findall_wordToken_facts _ v hv
    constructor
    · rw [← hveq]; exact hlen
    · intro c hc
      refine halpha c ?_
      rw [← hveq] at hc
      exact hc

/-- Witness for claim C9 at a concrete text. -/
theorem claim_C9_witness :
    (extract_keywords "the cat and cat dog apple dog fox" 3).length ≤ 3 ∧
    ("cat" ∉ stop_words ∧ 3 ≤ "cat".data.length ∧ ∀ c ∈ "cat".data, isAsciiAlpha c = true) :=
  ⟨claim_C9_keywords.1 "the cat and cat dog apple dog fox" 3,
   claim_C9_keywords.2.2.1 "the cat and cat dog apple dog fox" 3 "cat" (by decide)⟩

/-! ## Lemmas about the search engine -/

theorem mapM_ok_forall2 {α β : Type} (f : α → Except String β) :
    ∀ (l : List α) (l2 : List β), l.mapM f = .ok l2 →
      List.Forall₂ (fun a b => f a = .ok b) l l2 := by
  intro l
  induction l with
  | nil =>
    intro l2 h
    simp only [List.mapM_nil, pure, Except.pure, Except.ok.injEq] at h
    subst h
    exact .nil
  | cons a as ih =>
    intro l2 h
    rw [List.mapM_cons] at h
    cases hfa : f a with
    | error e =>
      rw [hfa] at h
      simp [Bind.bind, Except.bind] at h
    | ok b =>
      rw [hfa] at h
      cases hrest : as.mapM f with
      | error e =>
        rw [hrest] at h
        simp [Bind.bind, Except.bind] at h
      | ok bs =>
        rw [hrest] at h
        simp only [Bind.bind, Except.bind, pure, Except.pure, Except.ok.injEq] at h
        subst h
        exact .cons hfa (ih bs hrest)

theorem forall2_mem_right {α β : Type} {P : α → β → Prop} :
    ∀ {l1 : List α} {l2 : List β}, List.Forall₂ P l1 l2 →
      ∀ b ∈ l2, ∃ a ∈ l1, P a b := by
  intro l1 l2 hf
  induction hf with
  | nil => intro b hb; simp at hb
  | cons hp _ ih =>
    intro b hb
    rcases List.mem_cons.mp hb with rfl | hb
    · exact ⟨_, List.mem_cons_self _ _, hp⟩
    · obtain ⟨a, ha, hpa⟩ := ih b hb
      exact ⟨a, List.mem_cons_of_mem _ ha, hpa⟩

theorem forall2_map_eq {α β γ : Type} {P : α → β → Prop} {g : β → γ} {h : α → γ}
    (himp : ∀ a b, P a b → g b = h a) :
    ∀ {l1 : List α} {l2 : List β}, List.Forall₂ P l1 l2 → l2.map g = l1.map h := by
  intro l1 l2 hf
  induction hf with
  | nil => rfl
  | cons hp _ ih => simp [himp _ _ hp, ih]

/-- The `search` row conversion copies `max(0, 1 - distance)` into the
similarity score. -/
theorem rowToResult_score {qt : String} {r : QRow} {s : SearchResult}
    (h : rowToResult qt r = .ok s) : s.similarity_score = max 0 (1 - r.distance) := by
  simp only [rowToResult] at h
  split at h
  · simp at h
  · simp only [Except.ok.injEq] at h
    rw [← h]

/-- The `find_similar` row conversion copies `max(0, 1 - distance)` into the
similarity score. -/
theorem rowToResultSimilar_score {r : QRow} {s : SearchResult}
    (h : rowToResultSimilar r = .ok s) : s.similarity_score = max 0 (1 - r.distance) := by
  simp only [rowToResultSimilar] at h
  split at h
  · simp at h
  · simp only [Except.ok.injEq] at h
    rw [← h]

theorem rowToResultSimilar_id {r : QRow} {s : SearchResult}
    (h : rowToResultSimilar r = .ok s) : s.email_id = r.id := by
  simp only [rowToResultSimilar] at h
  split at h
  · simp at h
  · simp only [Except.ok.injEq] at h
    rw [← h]

/-- Converted rows inherit descending similarity from ascending distance. -/
theorem scores_desc_of_asc {rows : List QRow} {l : List SearchResult}
    (hf : List.Forall₂ (fun r s => rowToResultSimilar r = .ok s) rows l)
    (hasc : rows.Pairwise (fun a b => a.distance ≤ b.distance)) :
    l.Pairwise (fun a b => b.similarity_score ≤ a.similarity_score) := by
  have hmap : l.map (fun s => s.similarity_score) =
      rows.map (fun r => max 0 (1 - r.distance)) :=
    forall2_map_eq (fun r s hrs => rowToResultSimilar_score hrs) hf
  have h1 : (rows.map (fun r => max 0 (1 - r.distance))).Pairwise (fun a b => b ≤ a) := by
    rw [List.pairwise_map]
    refine hasc.imp ?_
    intro a b hab
    exact max_le_max le_rfl (sub_le_sub_left hab 1)
  rw [← hmap, List.pairwise_map] at h1
  exact h1

theorem scores_desc_of_asc_search {qt : String} {rows : List QRow} {l : List SearchResult}
    (hf : List.Forall₂ (fun r s => rowToResult qt r = .ok s) rows l)
    (hasc : rows.Pairwise (fun a b => a.distance ≤ b.distance)) :
    l.Pairwise (fun a b => b.similarity_score ≤ a.similarity_score) := by
  have hmap : l.map (fun s => s.similarity_score) =
      rows.map (fun r => max 0 (1 - r.distance)) :=
    forall2_map_eq (fun r s hrs => rowToResult_score hrs) hf
  have h1 : (rows.map (fun r => max 0 (1 - r.distance))).Pairwise (fun a b => b ≤ a) := by
    rw [List.pairwise_map]
    refine hasc.imp ?_
    intro a b hab
    exact max_le_max le_rfl (sub_le_sub_left hab 1)
  rw [← hmap, List.pairwise_map] at h1
  exact h1

/-- Unfolding of `find_similar_go` when the id is stored. -/
theorem find_similar_go_cons {b : Backend} {email_id : String} {limit : Nat}
    {g : GRow} {rest : List GRow} (hget : b.get email_id = .ok (g :: rest)) :
    find_similar_go b email_id limit =
      match b.query g.embedding (limit + 1) none with
      | .error e => .error e
      | .ok rows =>
        match (rows.filter (fun r => r.id ≠ email_id)).mapM rowToResultSimilar with
        | .error e => .error e
        | .ok results => .ok (results.take limit) := by
  cases hq : b.query g.embedding (limit + 1) none with
  | error e =>
    simp only [find_similar_go, hget, hq, Bind.bind, Except.bind]
  | ok rows =>
    cases hm : (rows.filter (fun r => r.id ≠ email_id)).mapM rowToResultSimilar with
    | error e =>
      simp only [find_similar_go, hget, hq, hm, Bind.bind, Except.bind]
    | ok results =>
      simp only [find_similar_go, hget, hq, hm, Bind.bind, Except.bind, pure, Except.pure]

/-- Unfolding of `find_similar_go` when the id is absent. -/
theorem find_similar_go_nil {b : Backend} {email_id : String} {limit : Nat}
    (hget : b.get email_id = .ok []) : find_similar_go b email_id limit = .ok [] := by
  simp only [find_similar_go, hget]
  rfl

/-- Unfolding of `find_similar_go` when the `get` call itself fails. -/
theorem find_similar_go_get_err {b : Backend} {email_id : String} {limit : Nat} {e : String}
    (hget : b.get email_id = .error e) : find_similar_go b email_id limit = .error e := by
  simp only [find_similar_go, hget]
  rfl

/-- Unfolding of `search` once the query embedding is available. -/
theorem search_eq {b : Backend} {q : SearchQueryM} {emb : List ℚ}
    (he : b.embed q.query = .ok emb) :
    search b q =
      match b.query emb q.limit (whereOf q) with
      | .error e => .error e
      | .ok rows =>
        match rows.mapM (rowToResult q.query) with
        | .error e => .error e
        | .ok results => .ok results := by
  cases hq : b.query emb q.limit (whereOf q) with
  | error e =>
    simp only [search, he, hq, Bind.bind, Except.bind]
  | ok rows =>
    cases hm : rows.mapM (rowToResult q.query) with
    | error e =>
      simp only [search, he, hq, hm, Bind.bind, Except.bind]
    | ok results =>
      simp only [search, he, hq, hm, Bind.bind, Except.bind, pure, Except.pure]

/-- Full evaluation of `find_similar` for a stored id and a successful
neighbour query. -/
theorem find_similar_eval {b : Backend} {id : String} {limit : Nat} {g : GRow}
    {rest : List GRow} {rows : List QRow}
    (hget : b.get id = .ok (g :: rest))
    (hq : b.query g.embedding (limit + 1) none = .ok rows) :
    find_similar b id limit =
      match (rows.filter (fun r => r.id ≠ id)).mapM rowToResultSimilar with
      | .error _ => []
      | .ok results => results.take limit := by
  have h1 : find_similar b id limit =
      match (match (rows.filter (fun r => r.id ≠ id)).mapM rowToResultSimilar with
        | Except.error e => (Except.error e : Except String (List SearchResult))
        | Except.ok results => Except.ok (results.take limit)) with
      | Except.ok r => r
      | Except.error _ => [] := by
    unfold find_similar
    rw [find_similar_go_cons hget, hq]
  rw [h1]
  cases hm : (rows.filter (fun r => r.id ≠ id)).mapM rowToResultSimilar with
  | error e => rfl
  | ok results => rfl

/-- `find_similar` returns no results when the neighbour query fails. -/
theorem find_similar_eval_qerr {b : Backend} {id : String} {limit : Nat} {g : GRow}
    {rest : List GRow} {e : String}
    (hget : b.get id = .ok (g :: rest))
    (hq : b.query g.embedding (limit + 1) none = .error e) :
    find_similar b id limit = [] := by
  unfold find_similar
  rw [find_similar_go_cons hget, hq]

/-- `find_similar` returns no results when the id is absent. -/
theorem find_similar_eval_nil {b : Backend} {id : String} {limit : Nat}
    (hget : b.get id = .ok []) : find_similar b id limit = [] := by
  unfold find_similar
  rw [find_similar_go_nil hget]

/-- `find_similar` returns no results when the `get` call fails. -/
theorem find_similar_eval_gerr {b : Backend} {id : String} {limit : Nat} {e : String}
    (hget : b.get id = .error e) : find_similar b id limit = [] := by
  unfold find_similar
  rw [find_similar_go_get_err hget]

/-! ## Claim C7 -/

/-- Claim C7: for a stored id, `find_similar` consults the index only through
a `limit + 1`-neighbour query (conjunct 1: the result only depends on the
backend's `get` and on `query` at `limit + 1`), never includes the id itself
(conjunct 2), returns at most `limit` entries (conjunct 3), and — whenever
the backend returns its neighbours in ascending cosine-distance order, as
ChromaDB does — both `find_similar` and `search` produce results in
descending similarity order (conjuncts 4 and 5), where both row conversions
turn a distance `d` into the score `max 0 (1 - d)` (conjuncts 6 and 7). -/
theorem claim_C7_similarity :
    (∀ (b b' : Backend) (id : String) (limit : Nat),
        b'.get id = b.get id →
        (∀ e, b'.query e (limit + 1) none = b.query e (limit + 1) none) →
        find_similar b' id limit = find_similar b id limit) ∧
    (∀ (b : Backend) (id : String) (limit : Nat),
        ∀ r ∈ find_similar b id limit, r.email_id ≠ id) ∧
    (∀ (b : Backend) (id : String) (limit : Nat),
        (find_similar b id limit).length ≤ limit) ∧
    (∀ (b : Backend) (id : String) (limit : Nat) (g : GRow) (rest : List GRow)
        (rows : List QRow),
        b.get id = .ok (g :: rest) →
        b.query g.embedding (limit + 1) none = .ok rows →
        rows.Pairwise (fun x y => x.distance ≤ y.distance) →
        (find_similar b id limit).Pairwise
          (fun x y => y.similarity_score ≤ x.similarity_score)) ∧
    (∀ (b : Backend) (q : SearchQueryM) (emb : List ℚ) (rows : List QRow)
        (results : List SearchResult),
        b.embed q.query = .ok emb →
        b.query emb q.limit (whereOf q) = .ok rows →
        rows.Pairwise (fun x y => x.distance ≤ y.distance) →
        search b q = .ok results →
        results.Pairwise (fun x y => y.similarity_score ≤ x.similarity_score)) ∧
    (∀ (qt : String) (r : QRow) (s : SearchResult),
        rowToResult qt r = .ok s → s.similarity_score = max 0 (1 - r.distance)) ∧
    (∀ (r : QRow) (s : SearchResult),
        rowToResultSimilar r = .ok s → s.similarity_score = max 0 (1 - r.distance)) := by
  refine ⟨?_, ?_, ?_, ?_, ?_,
    fun qt r s h => rowToResult_score h, fun r s h => rowToResultSimilar_score h⟩
  · intro b b' id limit hg hq
    cases hget : b.get id with
    | error e =>
      have hget' : b'.get id = .error e := by rw [hg, hget]
      rw [find_similar_eval_gerr hget, find_similar_eval_gerr hget']
    | ok got =>
      cases got with
      | nil =>
        have hget' : b'.get id = .ok [] := by rw [hg, hget]
        rw [find_similar_eval_nil hget, find_similar_eval_nil hget']
      | cons g rest =>
        have hget' : b'.get id = .ok (g :: rest) := by rw [hg, hget]
        cases hque : b.query g.embedding (limit + 1) none with
        | error e =>
          have hque' : b'.query g.embedding (limit + 1) none = .error e := by
            rw [hq, hque]
          rw [find_similar_eval_qerr hget hque, find_similar_eval_qerr hget' hque']
        | ok rows =>
          have hque' : b'.query g.embedding (limit + 1) none = .ok rows := by
            rw [hq, hque]
          rw [find_similar_eval hget hque, find_similar_eval hget' hque']
  · intro b id limit r hr
    cases hget : b.get id with
    | error e => rw [find_similar_eval_gerr hget] at hr; simp at hr
    | ok got =>
      cases got with
      | nil => rw [find_similar_eval_nil hget] at hr; simp at hr
      | cons g rest =>
        cases hque : b.query g.embedding (limit + 1) none with
        | error e => rw [find_similar_eval_qerr hget hque] at hr; simp at hr
        | ok rows =>
          rw [find_similar_eval hget hque] at hr
          cases hm : (rows.filter (fun r2 => r2.id ≠ id)).mapM rowToResultSimilar with
          | error e => rw [hm] at hr; simp at hr
          | ok results =>
            rw [hm] at hr
            have hr2 : r ∈ results.take limit := hr
            have hr3 := (List.take_sublist limit results).mem hr2
            obtain ⟨row, hrow, hconv⟩ :=
              forall2_mem_right (mapM_ok_forall2 _ _ _ hm) r hr3
            have hid := rowToResultSimilar_id hconv
            have hne : row.id ≠ id := by simpa using List.of_mem_filter hrow
            rw [hid]
            exact hne
  · intro b id limit
    cases hget : b.get id with
    | error e => rw [find_similar_eval_gerr hget]; simp
    | ok got =>
      cases got with
      | nil => rw [find_similar_eval_nil hget]; simp
      | cons g rest =>
        cases hque : b.query g.embedding (limit + 1) none with
        | error e => rw [find_similar_eval_qerr hget hque]; simp
        | ok rows =>
          rw [find_similar_eval hget hque]
          cases hm : (rows.filter (fun r2 => r2.id ≠ id)).mapM rowToResultSimilar with
          | error e => simp
          | ok results =>
            show (results.take limit).length ≤ limit
            simp [List.length_take]
  · intro b id limit g rest rows hget hq hasc
    rw [find_similar_eval hget hq]
    cases hm : (rows.filter (fun r2 => r2.id ≠ id)).mapM rowToResultSimilar with
    | error e => exact List.Pairwise.nil
    | ok results =>
      show (results.take limit).Pairwise
        (fun x y => y.similarity_score ≤ x.similarity_score)
      have hdesc := scores_desc_of_asc (mapM_ok_forall2 _ _ _ hm) (hasc.filter _)
      exact hdesc.sublist (List.take_sublist _ _)
  · intro b q emb rows results he hq hasc hs
    rw [search_eq he, hq] at hs
    have hs2 : (match rows.mapM (rowToResult q.query) with
        | Except.error e => Except.error e
        | Except.ok rs => Except.ok rs) = Except.ok results := hs
    cases hm : rows.mapM (rowToResult q.query) with
    | error e => rw [hm] at hs2; simp at hs2
    | ok rs =>
      rw [hm] at hs2
      simp only [Except.ok.injEq] at hs2
      subst hs2
      exact scores_desc_of_asc_search (mapM_ok_forall2 _ _ _ hm) hasc

/-- Witness for claim C7 at the concrete three-row backend. -/
theorem claim_C7_witness :
    find_similar wBackend "a" 2 = find_similar wBackend "a" 2 ∧
    (∀ r ∈ find_similar wBackend "a" 2, r.email_id ≠ "a") ∧
    (find_similar wBackend "a" 2).length ≤ 2 ∧
    (find_similar wBackend "a" 2).Pairwise
      (fun x y => y.similarity_score ≤ x.similarity_score) ∧
    ({ email_id := qRowB.id, subject := qRowB.subject,
       snippet := if 200 < qRowB.document.data.length
                  then String.mk (qRowB.document.data.take 200) ++ "..."
                  else qRowB.document,
       similarity_score := max 0 (1 - qRowB.distance),
       category := .billing, timestamp := qRowB.timestamp } :
         SearchResult).similarity_score = max 0 (1 - qRowB.distance) :=
  ⟨claim_C7_similarity.1 wBackend wBackend "a" 2 rfl (fun _ => rfl),
   claim_C7_similarity.2.1 wBackend "a" 2,
   claim_C7_similarity.2.2.1 wBackend "a" 2,
   claim_C7_similarity.2.2.2.1 wBackend "a" 2 gRowA [] [qRowSelf, qRowB, qRowC]
     rfl rfl (by decide),
   claim_C7_similarity.2.2.2.2.2.2 qRowB _ rfl⟩

/-! ## Claim C8 -/

/-- Counterexample to claim C8 as stated: an index-backend failure during a
find-similar call is not returned to the caller as an error — the stored id
is found, the neighbour query raises, and `find_similar` silently converts
the failure into the normal result `[]`. -/
theorem claim_C8_counterexample :
    wBackendQueryErr.get "a" = .ok [gRowA] ∧
    wBackendQueryErr.query gRowA.embedding 6 none = .error "index backend failure" ∧
    find_similar wBackendQueryErr "a" 5 = [] :=
  ⟨rfl, rfl, find_similar_eval_qerr rfl rfl⟩

/-- Claim C8, amended: `search` surfaces every embedding-service or
index-backend failure as an error to its caller without internal retry, but
`find_similar` catches every failure of its body and returns the empty list
instead of an error. -/
theorem claim_C8_amended :
    (∀ (b : Backend) (q : SearchQueryM) (e : String),
        b.embed q.query = .error e → search b q = .error e) ∧
    (∀ (b : Backend) (q : SearchQueryM) (emb : List ℚ) (e : String),
        b.embed q.query = .ok emb → b.query emb q.limit (whereOf q) = .error e →
        search b q = .error e) ∧
    (∀ (b : Backend) (id : String) (limit : Nat) (e : String),
        find_similar_go b id limit = .error e → find_similar b id limit = []) := by
  refine ⟨?_, ?_, ?_⟩
  · intro b q e h
    simp only [search, h, Bind.bind, Except.bind]
  · intro b q emb e he hq
    rw [search_eq he, hq]
  · intro b id limit e h
    unfold find_similar
    rw [h]

/-- Witness for claim C8's amended statement at the failing backend. -/
theorem claim_C8_witness :
    search wBackendErr ⟨"q", 5, none⟩ = .error "embedding service failure" ∧
    find_similar wBackendErr "a" 5 = [] :=
  ⟨claim_C8_amended.1 wBackendErr ⟨"q", 5, none⟩ "embedding service failure" rfl,
   claim_C8_amended.2.2 wBackendErr "a" 5 "index backend failure" rfl⟩

/-! ## Claim C10 -/

/-- Claim C10: when the id is not present in the index (the `get` call
returns an empty reply, as ChromaDB does for unknown ids), `find_similar`
returns the empty list — normally, not via the exception handler, since the
model's body returns `Except.ok []` — and it does so whatever the neighbour
query function is, i.e. without consulting it. -/
theorem claim_C10_missing_id (b : Backend) (id : String) (limit : Nat)
    (h : b.get id = .ok []) :
    find_similar b id limit = [] ∧
    ∀ qf, find_similar { b with query := qf } id limit = [] :=
  ⟨find_similar_eval_nil h, fun _ => find_similar_eval_nil h⟩

/-- Witness for claim C10 at the concrete backend and an absent id. -/
theorem claim_C10_witness :
    find_similar wBackend "zzz" 4 = [] ∧
    ∀ qf, find_similar { wBackend with query := qf } "zzz" 4 = [] :=
  claim_C10_missing_id wBackend "zzz" 4 rfl
